import Mathlib

/-!
Verification of the sn_dbc confidential-transaction core against its
specification.

The development shallowly embeds the code of `src/transaction/mod.rs`,
`src/transaction/input.rs`, `src/mock/mock_spentbook.rs` and `src/builder.rs`.
Cryptographic primitives whose sources are external to the repository
(Ristretto group arithmetic, BLS signatures, Bulletproofs range proofs,
SHA3-256) are modelled by their ideal functionality, as documented on each
definition:

* a Pedersen commitment value·G + blinding·H is represented by its exponent
  pair (the coefficient of G and of H), which is faithful to the group
  operations the code performs (addition, equality) under the standing
  assumption that G and H are independent generators;
* a BLS signature is represented by the signer identity and the signed
  message (unforgeability made exact);
* a Bulletproofs range proof is represented by the committed opening plus the
  Merlin transcript state it was produced on (Fiat-Shamir binding made exact);
* SHA3-256 is represented by the identity on the hashed byte encoding
  (collision resistance made exact).

Machine integers (`u64`) are `Nat` together with explicit `< 2 ^ 64` bounds
where they matter; randomness is an explicit stream of scalars.
-/

/-- Order of the Ristretto group, i.e. the modulus of the scalar field that
`curve25519_dalek::scalar::Scalar` implements. -/
def ristrettoOrder : Nat :=
  7237005577332262213973186563042994240857116359379907606001950938285454250989

/-- A Ristretto scalar, as an integer mod the group order. -/
abbrev Scalar := ZMod ristrettoOrder

instance : NeZero ristrettoOrder := ⟨by decide⟩

/-- A Ristretto point of the form value·G + blinding·H, represented by its
exponent pair (coefficient of G, coefficient of H).  Addition and equality of
such points are componentwise, which models the real group faithfully under
the assumption that the default Pedersen generators G and H are independent. -/
abbrev RistrettoPoint := Scalar × Scalar

/-- A `BlindedAmount` is a Pedersen commitment, i.e. a Ristretto point. -/
abbrev BlindedAmount := RistrettoPoint

/-- The commitment value·G + blinding·H under the default Pedersen generators
(`RevealedAmount::blinded_amount` in the source; the amount type itself lives
in the out-of-repository file `transaction/amount.rs`). -/
def pcCommit (value : Nat) (blinding : Scalar) : BlindedAmount :=
  ((value : Scalar), blinding)

/-- Modelled from the spec: a `DbcId` is a one-time BLS public key; public
keys are represented by natural-number identifiers. -/
structure DbcId where
  key : Nat
deriving DecidableEq, Repr

/-- Modelled from the spec: a `DerivedKey` is the one-time secret key whose
public identity is the corresponding `DbcId`. -/
structure DerivedKey where
  secret : Nat
deriving DecidableEq, Repr

/-- The public identity of a derived secret key. -/
def DerivedKey.dbc_id (k : DerivedKey) : DbcId :=
  ⟨k.secret⟩

/-- Modelled from the spec: `RevealedAmount` is the opening
(value, blinding factor) of a Pedersen commitment (`transaction/amount.rs` is
not part of the repository sources).  `value` is a `u64` in the source; the
bound `value < 2 ^ 64` is carried as a hypothesis where it matters. -/
structure RevealedAmount where
  value : Nat
  blinding_factor : Scalar
deriving DecidableEq, Repr

/-- The commitment of an opening: value·G + blinding·H. -/
def RevealedAmount.blinded_amount (r : RevealedAmount) : BlindedAmount :=
  pcCommit r.value r.blinding_factor

/-- A Merlin transcript: its initialization label and the data absorbed so
far.  `Transcript::new(MERLIN_TRANSCRIPT_LABEL)` gives an empty event list. -/
structure Transcript where
  label : String
  events : List (Nat × Scalar)
deriving DecidableEq, Repr

/-- A fresh transcript carrying only its label. -/
def Transcript.new (label : String) : Transcript :=
  { label := label, events := [] }

/-- Absorbing one range-proof round into a transcript. -/
def Transcript.absorb (ts : Transcript) (v : Nat) (b : Scalar) : Transcript :=
  { ts with events := ts.events ++ [(v, b)] }

/-- A Bulletproofs single-value range proof, modelled by its ideal
functionality: the proof demonstrates knowledge of an opening `(v, b)` of the
committed value, with `v` in range, bound (via Fiat-Shamir) to the transcript
state it was generated on. -/
structure RangeProof where
  v : Nat
  b : Scalar
  bound : Transcript
deriving DecidableEq, Repr

/-- The fixed Merlin transcript label of `transaction/mod.rs`. -/
def MERLIN_TRANSCRIPT_LABEL : String := "SN_DBC"

/-- The range-proof bit size of `transaction/mod.rs` (`RANGE_PROOF_BITS`). -/
def RANGE_PROOF_BITS : Nat := 64

/-- Tokens of the canonical signing encoding (`serialize` in
`transaction/mod.rs`).  Byte strings of the source are modelled as token
lists; distinct constructors model the injective byte encodings of the
underlying libraries.  Signing messages never contain signatures, so these
tokens have no signature constructor. -/
inductive MTok where
  | lit (s : String)
  | keyTok (d : DbcId)
  | pt (p : RistrettoPoint)
  | rp (r : RangeProof)
deriving DecidableEq, Repr

/-- Modelled from the spec: a BLS signature, by its ideal functionality — it
is determined by (and commits to) the signer's identity and the message. -/
structure Signature where
  signer : DbcId
  msg : List MTok
deriving DecidableEq, Repr

/-- Tokens of the transaction hash encoding (`DbcTransaction::to_bytes`),
which additionally contains input signatures. -/
inductive Tok where
  | m (t : MTok)
  | sg (s : Signature)
deriving DecidableEq, Repr

/-- A transaction hash.  SHA3-256 over the canonical encoding is modelled as
the encoding itself (the ideal collision-resistant hash). -/
abbrev Hash := List Tok

/-- Signing under a derived key (ideal BLS: the signature records signer and
message). -/
def DerivedKey.sign (k : DerivedKey) (msg : List MTok) : Signature :=
  { signer := k.dbc_id, msg := msg }

/-- Signature verification under a public identity (ideal BLS:
`blsttc::PublicKey::verify`). -/
def DbcId.verify (d : DbcId) (sig : Signature) (msg : List MTok) : Bool :=
  decide (sig.signer = d ∧ sig.msg = msg)

/-- Errors of the library (`transaction/error.rs` and `error.rs` are not part
of the repository sources; the constructors follow the spec's error kinds,
with `BulletProofs` for a range-proof failure and the last four constructors
modelled from the spec for the witness-aggregation surface). -/
inductive Error where
  | InvalidInputBlindedAmount
  | InvalidSignature
  | MissingTxInputs
  | DbcIdNotUniqueAcrossInputs
  | InconsistentDbcTransaction
  | FailedToDecompressBlindedAmount
  | BulletProofs
  | InvalidTransactionHash
  | MissingAmountForDbcId (d : DbcId)
  | DbcAlreadySpent
  | MissingSpentTransaction
  | PublicKeyNotFound
  | MissingSpentProofForInput
  | InvalidSpentProofTransactionHash
  | FailedSpentProofSignature
  | FailedToReconstructSpentProof
  | BuildAssertionFailed
deriving DecidableEq, Repr

/-- Decidable equality of results. -/
instance {e a : Type} [DecidableEq e] [DecidableEq a] : DecidableEq (Except e a) :=
  fun x y =>
    match x, y with
    | .error u, .error v => decidable_of_iff (u = v) (by simp)
    | .ok u, .ok v => decidable_of_iff (u = v) (by simp)
    | .error _, .ok _ => isFalse (by simp)
    | .ok _, .error _ => isFalse (by simp)

/-- `RevealedInput` of `transaction/input.rs`: the holder's view of a
spendable UTXO. -/
structure RevealedInput where
  derived_key : DerivedKey
  revealed_amount : RevealedAmount
deriving DecidableEq, Repr

/-- `RevealedInput::dbc_id`. -/
def RevealedInput.dbc_id (i : RevealedInput) : DbcId :=
  i.derived_key.dbc_id

/-- `RevealedInput::blinded_amount` (the Pedersen generators are the default
ones, carried implicitly by the model). -/
def RevealedInput.blinded_amount (i : RevealedInput) : BlindedAmount :=
  i.revealed_amount.blinded_amount

/-- `BlindedInput` of `transaction/input.rs`: the public on-wire view of an
input. -/
structure BlindedInput where
  dbc_id : DbcId
  blinded_amount : BlindedAmount
  signature : Signature
deriving DecidableEq, Repr

/-- `RevealedInput::sign`. -/
def RevealedInput.sign (i : RevealedInput) (msg : List MTok) : BlindedInput :=
  { dbc_id := i.dbc_id
    blinded_amount := i.blinded_amount
    signature := i.derived_key.sign msg }

/-- `BlindedInput::to_bytes`: dbc_id ∥ compressed commitment ∥ signature. -/
def BlindedInput.to_bytes (i : BlindedInput) : List Tok :=
  [Tok.m (MTok.keyTok i.dbc_id), Tok.m (MTok.pt i.blinded_amount), Tok.sg i.signature]

/-- `BlindedInput::verify`: the carried commitment must equal the expected
one, and the signature must verify under the carried public identity. -/
def BlindedInput.verify (i : BlindedInput) (msg : List MTok)
    (blinded_amount : BlindedAmount) : Except Error Unit :=
  if i.blinded_amount ≠ blinded_amount then .error .InvalidInputBlindedAmount
  else if DbcId.verify i.dbc_id i.signature msg = false then .error .InvalidSignature
  else .ok ()

/-- `Output` of `transaction/output.rs` (file not in the repository sources;
fields per the spec): the pre-blinding intention. -/
structure Output where
  dbc_id : DbcId
  amount : Nat
deriving DecidableEq, Repr

/-- `RevealedOutput`: the intention after blinding-factor assignment. -/
structure RevealedOutput where
  dbc_id : DbcId
  revealed_amount : RevealedAmount
deriving DecidableEq, Repr

/-- `BlindedOutput`: commitment plus range proof. -/
structure BlindedOutput where
  dbc_id : DbcId
  range_proof : RangeProof
  blinded_amount : BlindedAmount
deriving DecidableEq, Repr

/-- Modelled from the spec: `BlindedOutput.to_bytes` is
dbc_id ∥ range_proof bytes ∥ compressed commitment (`transaction/output.rs`
is not part of the repository sources). -/
def BlindedOutput.to_bytes (o : BlindedOutput) : List MTok :=
  [MTok.keyTok o.dbc_id, MTok.rp o.range_proof, MTok.pt o.blinded_amount]

/-- An explicit stream of random scalars: the model of the caller-provided
cryptographically secure RNG. -/
structure Rng where
  seq : Nat → Scalar
  idx : Nat

/-- Drawing one scalar from the stream. -/
def Rng.next (rng : Rng) : Scalar × Rng :=
  (rng.seq rng.idx, { rng with idx := rng.idx + 1 })

/-- Modelled from the spec: `Output::revealed_amount(rng)` samples a fresh
random blinding factor for the declared amount. -/
def Output.revealed_amount (o : Output) (rng : Rng) : RevealedAmount × Rng :=
  let (b, rng') := rng.next
  ({ value := o.amount, blinding_factor := b }, rng')

/-- `RangeProof::prove_single_with_rng` by its ideal functionality: it
produces a proof of the opening bound to the current transcript state,
absorbs the round into the transcript, and returns the (compressed)
commitment.  Proving fails when the value exceeds the 64-bit range (the
proof randomization draws do not influence the ideal proof object). -/
def RangeProof.prove_single (ts : Transcript) (v : Nat) (b : Scalar) :
    Except Error (RangeProof × BlindedAmount × Transcript) :=
  if v < 2 ^ RANGE_PROOF_BITS then
    .ok ({ v := v, b := b, bound := ts }, pcCommit v b, ts.absorb v b)
  else .error .BulletProofs

/-- `RangeProof::verify_single` by its ideal functionality: the proof is
accepted exactly when it is bound to the current transcript state, opens the
asserted commitment, and its value is in the 64-bit range; verification
absorbs the same round the prover did. -/
def RangeProof.verify_single (r : RangeProof) (ts : Transcript)
    (commitment : BlindedAmount) : Except Error Transcript :=
  if r.bound = ts ∧ commitment = pcCommit r.v r.b ∧ r.v < 2 ^ RANGE_PROOF_BITS then
    .ok (ts.absorb r.v r.b)
  else .error .BulletProofs

/-- The shared helper `serialize` of `transaction/mod.rs`: the canonical
signing message, built from input ids, input commitments and blinded
outputs. -/
def serialize (dbc_ids : List DbcId) (input_amounts : List BlindedAmount)
    (blinded_outputs : List BlindedOutput) : List MTok :=
  [MTok.lit "dbc_ids"] ++ dbc_ids.map MTok.keyTok
    ++ [MTok.lit "input_amounts"] ++ input_amounts.map MTok.pt
    ++ [MTok.lit "blinded_outputs"] ++ (blinded_outputs.map BlindedOutput.to_bytes).flatten

/-- `DbcTransaction` of `transaction/mod.rs`. -/
structure DbcTransaction where
  inputs : List BlindedInput
  outputs : List BlindedOutput
deriving DecidableEq, Repr

/-- `DbcTransaction::to_bytes`: the hash encoding
"inputs" ∥ inputs ∥ "outputs" ∥ outputs ∥ "end". -/
def DbcTransaction.to_bytes (tx : DbcTransaction) : List Tok :=
  [Tok.m (MTok.lit "inputs")] ++ (tx.inputs.map BlindedInput.to_bytes).flatten
    ++ [Tok.m (MTok.lit "outputs")]
    ++ (tx.outputs.map (fun o => o.to_bytes.map Tok.m)).flatten
    ++ [Tok.m (MTok.lit "end")]

/-- `DbcTransaction::hash`: SHA3-256 of the canonical encoding, modelled as
the encoding itself (ideal hash). -/
def DbcTransaction.hash (tx : DbcTransaction) : Hash :=
  tx.to_bytes

/-- `DbcTransaction::serialize_tx`: the signing message rebuilt from the
transaction's own inputs and outputs. -/
def DbcTransaction.serialize_tx (tx : DbcTransaction) : List MTok :=
  serialize (tx.inputs.map BlindedInput.dbc_id)
    (tx.inputs.map BlindedInput.blinded_amount) tx.outputs

/-- The input-signature loop of `DbcTransaction::verify`: the zip of inputs
with the expected amounts, each checked in order, first error aborting. -/
def checkInputs (msg : List MTok) :
    List (BlindedInput × BlindedAmount) → Except Error Unit
  | [] => .ok ()
  | (i, a) :: rest =>
    match i.verify msg a with
    | .error e => .error e
    | .ok _ => checkInputs msg rest

/-- The range-proof loop of `DbcTransaction::verify`: one shared transcript,
threaded through the outputs in order. -/
def checkRangeProofs (ts : Transcript) :
    List BlindedOutput → Except Error Transcript
  | [] => .ok ts
  | o :: rest =>
    match o.range_proof.verify_single ts o.blinded_amount with
    | .error e => .error e
    | .ok ts' => checkRangeProofs ts' rest

/-- `DbcTransaction::verify`. -/
def DbcTransaction.verify (tx : DbcTransaction)
    (blinded_amounts : List BlindedAmount) : Except Error Unit :=
  let msg := tx.serialize_tx
  match checkInputs msg (tx.inputs.zip blinded_amounts) with
  | .error e => .error e
  | .ok _ =>
    match checkRangeProofs (Transcript.new MERLIN_TRANSCRIPT_LABEL) tx.outputs with
    | .error e => .error e
    | .ok _ =>
      if tx.inputs.isEmpty then .error .MissingTxInputs
      else if (tx.inputs.map BlindedInput.dbc_id).dedup.length ≠ tx.inputs.length then
        .error .DbcIdNotUniqueAcrossInputs
      else if (tx.inputs.map BlindedInput.blinded_amount).sum
          ≠ (tx.outputs.map BlindedOutput.blinded_amount).sum then
        .error .InconsistentDbcTransaction
      else .ok ()

/-- `InputHistory` of `transaction/mod.rs`. -/
structure InputHistory where
  input : RevealedInput
  input_src_tx : DbcTransaction
deriving DecidableEq, Repr

/-- `InputHistory::dbc_id`. -/
def InputHistory.dbc_id (ih : InputHistory) : DbcId :=
  ih.input.dbc_id

/-- `RevealedTx` of `transaction/mod.rs`. -/
structure RevealedTx where
  inputs : List InputHistory
  outputs : List Output
deriving DecidableEq, Repr

/-- `RevealedTx::input_ids`. -/
def RevealedTx.input_ids (rtx : RevealedTx) : List DbcId :=
  rtx.inputs.map InputHistory.dbc_id

/-- `RevealedTx::revealed_input_amounts`. -/
def RevealedTx.revealed_input_amounts (rtx : RevealedTx) : List RevealedAmount :=
  rtx.inputs.map (fun ih => ih.input.revealed_amount)

/-- `RevealedTx::blinded_input_amounts`. -/
def RevealedTx.blinded_input_amounts (rtx : RevealedTx) : List BlindedAmount :=
  rtx.inputs.map (fun ih => ih.input.blinded_amount)

/-- The first stage of `RevealedTx::adjusted_revealed_outputs`: the lazy
`map(revealed_amount(rng)).take(n-1)` draws one fresh blinding factor per
kept output, threading the RNG. -/
def sampleOutputs : List Output → Rng → List RevealedOutput × Rng
  | [], rng => ([], rng)
  | o :: rest, rng =>
    let (ra, rng') := o.revealed_amount rng
    let (tail, rng'') := sampleOutputs rest rng'
    ({ dbc_id := o.dbc_id, revealed_amount := ra } :: tail, rng'')

/-- `RevealedTx::adjusted_revealed_outputs`: all outputs but the last get
fresh random blinding factors; the last output's blinding factor is the sum
of the input blinding factors minus the sum of the sampled ones.  The
`outputs.last()` panic branch of the source is unreachable behind the
emptiness guard and is modelled by the empty list. -/
def RevealedTx.adjusted_revealed_outputs (rtx : RevealedTx)
    (revealed_input_amounts : List RevealedAmount) (rng : Rng) :
    List RevealedOutput × Rng :=
  if rtx.outputs.isEmpty then ([], rng)
  else
    let (revealed_outputs, rng') :=
      sampleOutputs (rtx.outputs.take (rtx.outputs.length - 1)) rng
    let input_summed_blinding_factors : Scalar :=
      (revealed_input_amounts.map RevealedAmount.blinding_factor).foldl (· + ·) 0
    let output_summed_blinding_factors : Scalar :=
      (revealed_outputs.map (fun r => r.revealed_amount.blinding_factor)).foldl (· + ·) 0
    let output_blinding_correction :=
      input_summed_blinding_factors - output_summed_blinding_factors
    match rtx.outputs.getLast? with
    | some last_output =>
      (revealed_outputs ++
        [{ dbc_id := last_output.dbc_id
           revealed_amount :=
             { value := last_output.amount
               blinding_factor := output_blinding_correction } }], rng')
    | none => ([], rng')

/-- The proving loop of `RevealedTx::blinded_outputs`: one shared transcript
threaded through the outputs in order (decompression of a just-compressed
commitment always succeeds in the model, so
`FailedToDecompressBlindedAmount` cannot arise). -/
def proveOutputs (ts : Transcript) :
    List RevealedOutput → Except Error (List BlindedOutput × Transcript)
  | [] => .ok ([], ts)
  | c :: rest =>
    match RangeProof.prove_single ts c.revealed_amount.value
        c.revealed_amount.blinding_factor with
    | .error e => .error e
    | .ok (range_proof, blinded_amount, ts') =>
      match proveOutputs ts' rest with
      | .error e => .error e
      | .ok (bos, ts'') =>
        .ok ({ dbc_id := c.dbc_id, range_proof := range_proof
               blinded_amount := blinded_amount } :: bos, ts'')

/-- `RevealedTx::blinded_outputs` (the RNG argument of the source only feeds
proof randomization, which the ideal proof object does not record). -/
def RevealedTx.blinded_outputs (revealed_outputs : List RevealedOutput) :
    Except Error (List BlindedOutput) :=
  (proveOutputs (Transcript.new MERLIN_TRANSCRIPT_LABEL) revealed_outputs).map
    (fun p => p.1)

/-- `RevealedTx::sign`. -/
def RevealedTx.sign (rtx : RevealedTx) (rng : Rng) :
    Except Error (DbcTransaction × List RevealedOutput) :=
  let revealed_input_amounts := rtx.revealed_input_amounts
  let input_amounts := rtx.blinded_input_amounts
  let (adjusted, rng') := rtx.adjusted_revealed_outputs revealed_input_amounts rng
  match RevealedTx.blinded_outputs adjusted with
  | .error e => .error e
  | .ok blinded_outputs =>
    let msg := serialize rtx.input_ids input_amounts blinded_outputs
    let blinded_inputs := rtx.inputs.map (fun ih => ih.input.sign msg)
    .ok ({ inputs := blinded_inputs, outputs := blinded_outputs }, adjusted)

/-- Modelled from the spec: a `SignedSpend` names the spent input identity
and the hash of the spending transaction (`signed_spend.rs` is not part of
the repository sources; `log_spent` reads exactly these two accessors). -/
structure SignedSpend where
  dbc_id : DbcId
  spent_tx_hash : Hash
deriving DecidableEq, Repr

/-- First-match lookup in an association list (the model of the `BTreeMap`
and `HashMap` reads performed by the spentbook and the builder). -/
def lookupMap {α β : Type} [DecidableEq α] : List (α × β) → α → Option β
  | [], _ => none
  | (k, v) :: rest, k' => if k = k' then some v else lookupMap rest k'

/-- `entry(k).or_insert_with(v)`, returning the resulting stored value and
the new map. -/
def orInsertGet {α β : Type} [DecidableEq α] (m : List (α × β)) (k : α) (v : β) :
    β × List (α × β) :=
  match lookupMap m k with
  | some v₀ => (v₀, m)
  | none => (v, m ++ [(k, v)])

/-- `entry(k).or_insert_with(v)` when only the map is needed. -/
def orInsert {α β : Type} [DecidableEq α] (m : List (α × β)) (k : α) (v : β) :
    List (α × β) :=
  (orInsertGet m k v).2

/-- `SpentbookNode` of `mock/mock_spentbook.rs` (the `id: PublicAddress`
field, never read by any operation, is a bare key). -/
structure SpentbookNode where
  id : Nat
  transactions : List (Hash × DbcTransaction)
  dbc_ids : List (DbcId × Hash)
  outputs_by_input_id : List (DbcId × BlindedOutput)
  genesis : DbcId × BlindedAmount
deriving DecidableEq, Repr

/-- `SpentbookNode::default()`, parametrized by the genesis material (the
`GenesisMaterial` bootstrap lives outside the repository sources and is
treated as a given pair, per the spec's scope). -/
def SpentbookNode.defaultState (genesis : DbcId × BlindedAmount) (idKey : Nat) :
    SpentbookNode :=
  { id := idKey, transactions := [], dbc_ids := [], outputs_by_input_id := []
    genesis := genesis }

/-- `SpentbookNode::is_spent`. -/
def SpentbookNode.is_spent (s : SpentbookNode) (dbc_id : DbcId) : Bool :=
  (lookupMap s.dbc_ids dbc_id).isSome

/-- The per-input commitment lookup of `log_spent_worker` for a non-genesis
spend: `outputs_by_input_id[input.dbc_id].blinded_amount`, collected
left-to-right with the first missing entry aborting (the desugared
`map(..).collect::<Result<_>>()`). -/
def lookupAmounts (m : List (DbcId × BlindedOutput)) :
    List BlindedInput → Except Error (List (DbcId × BlindedAmount))
  | [] => .ok []
  | input :: rest =>
    match lookupMap m input.dbc_id with
    | some p =>
      match lookupAmounts m rest with
      | .ok tail => .ok ((input.dbc_id, p.blinded_amount) :: tail)
      | .error e => .error e
    | none => .error (.MissingAmountForDbcId input.dbc_id)

/-- `SpentbookNode::log_spent_worker`.  The state is passed explicitly; the
pair is (result, new state). -/
def SpentbookNode.log_spent_worker (s : SpentbookNode) (spent_tx : DbcTransaction)
    (signed_spend : SignedSpend) (verify_tx : Bool) :
    Except Error Unit × SpentbookNode :=
  let input_id := signed_spend.dbc_id
  let spent_tx_hash := signed_spend.spent_tx_hash
  let tx_hash := spent_tx.hash
  if tx_hash ≠ spent_tx_hash then (.error .InvalidTransactionHash, s)
  else
    let genesis_dbc_id := s.genesis.1
    let genesis_blinded_amount := s.genesis.2
    let blinded_amounts_by_input_ids : Except Error (List (DbcId × BlindedAmount)) :=
      if input_id = genesis_dbc_id then .ok [(input_id, genesis_blinded_amount)]
      else lookupAmounts s.outputs_by_input_id spent_tx.inputs
    match blinded_amounts_by_input_ids with
    | .error e => (.error e, s)
    | .ok pairs =>
      let tx_blinded_amounts := pairs.map (fun p => p.2)
      match (if verify_tx then spent_tx.verify tx_blinded_amounts else .ok ()) with
      | .error e => (.error e, s)
      | .ok _ =>
        let (existing_tx_hash, dbc_ids') := orInsertGet s.dbc_ids input_id tx_hash
        if existing_tx_hash = tx_hash then
          let (existing_tx, transactions') := orInsertGet s.transactions tx_hash spent_tx
          let outputs' := existing_tx.outputs.foldl
            (fun m o => orInsert m o.dbc_id o) s.outputs_by_input_id
          (.ok (), { s with dbc_ids := dbc_ids', transactions := transactions'
                            outputs_by_input_id := outputs' })
        else (.error .DbcAlreadySpent, { s with dbc_ids := dbc_ids' })

/-- `SpentbookNode::log_spent`. -/
def SpentbookNode.log_spent (s : SpentbookNode) (spent_tx : DbcTransaction)
    (signed_spend : SignedSpend) : Except Error Unit × SpentbookNode :=
  s.log_spent_worker spent_tx signed_spend true

/-- `SpentbookNode::iter`, with the inconsistent-state panic modelled as
`none`. -/
def iterWorker (txs : List (Hash × DbcTransaction)) :
    List (DbcId × Hash) → Option (List (DbcId × DbcTransaction))
  | [] => some []
  | (k, h) :: rest =>
    match lookupMap txs h with
    | some tx => (iterWorker txs rest).map (fun t => (k, tx) :: t)
    | none => none

/-- Totality wrapper for `SpentbookNode::iter`: `none` is the panic. -/
def SpentbookNode.iterTotal (s : SpentbookNode) :
    Option (List (DbcId × DbcTransaction)) :=
  iterWorker s.transactions s.dbc_ids

/-- The commitment-list builder exactly as claim C5 words it: the genesis
test is made per input of `tx.inputs`. -/
def claimedLookupAmounts (s : SpentbookNode) :
    List BlindedInput → Except Error (List (DbcId × BlindedAmount))
  | [] => .ok []
  | input :: rest =>
    if input.dbc_id = s.genesis.1 then
      match claimedLookupAmounts s rest with
      | .ok tail => .ok ((input.dbc_id, s.genesis.2) :: tail)
      | .error e => .error e
    else
      match lookupMap s.outputs_by_input_id input.dbc_id with
      | some p =>
        match claimedLookupAmounts s rest with
        | .ok tail => .ok ((input.dbc_id, p.blinded_amount) :: tail)
        | .error e => .error e
      | none => .error (.MissingAmountForDbcId input.dbc_id)

/-- `log_spent` as claim C5 describes it: identical pipeline, but with the
per-input genesis-aware commitment lookup. -/
def SpentbookNode.logSpentClaimed (s : SpentbookNode) (spent_tx : DbcTransaction)
    (signed_spend : SignedSpend) : Except Error Unit × SpentbookNode :=
  let input_id := signed_spend.dbc_id
  let tx_hash := spent_tx.hash
  if tx_hash ≠ signed_spend.spent_tx_hash then (.error .InvalidTransactionHash, s)
  else
    match claimedLookupAmounts s spent_tx.inputs with
    | .error e => (.error e, s)
    | .ok pairs =>
      match spent_tx.verify (pairs.map (fun p => p.2)) with
      | .error e => (.error e, s)
      | .ok _ =>
        let (existing_tx_hash, dbc_ids') := orInsertGet s.dbc_ids input_id tx_hash
        if existing_tx_hash = tx_hash then
          let (existing_tx, transactions') := orInsertGet s.transactions tx_hash spent_tx
          let outputs' := existing_tx.outputs.foldl
            (fun m o => orInsert m o.dbc_id o) s.outputs_by_input_id
          (.ok (), { s with dbc_ids := dbc_ids', transactions := transactions'
                            outputs_by_input_id := outputs' })
        else (.error .DbcAlreadySpent, { s with dbc_ids := dbc_ids' })

/-- The commitment list `log_spent` actually resolves, stated from the
amended claim: the genesis branch is selected by the signed spend's identity
and then bypasses the per-input lookup entirely. -/
def amendedAmounts (s : SpentbookNode) (tx : DbcTransaction) (spend : SignedSpend) :
    Except Error (List BlindedAmount) :=
  if spend.dbc_id = s.genesis.1 then .ok [s.genesis.2]
  else (lookupAmounts s.outputs_by_input_id tx.inputs).map
    (fun l => l.map (fun p => p.2))

/-- The spent-transaction registration step: record the transaction under its
hash (first writer wins) and register every output of the stored transaction
under its id (first writer wins). -/
def SpentbookNode.registerTx (s : SpentbookNode) (tx : DbcTransaction) :
    SpentbookNode :=
  let stored := (lookupMap s.transactions tx.hash).getD tx
  { s with
    transactions := orInsert s.transactions tx.hash tx
    outputs_by_input_id :=
      stored.outputs.foldl (fun m o => orInsert m o.dbc_id o) s.outputs_by_input_id }

/-- `log_spent` as the amended claim C5 describes it: hash check, the
spend-identity genesis branch, transaction verification against the resolved
commitments, then the terminal per-id transition. -/
def SpentbookNode.logSpentAmended (s : SpentbookNode) (tx : DbcTransaction)
    (spend : SignedSpend) : Except Error Unit × SpentbookNode :=
  if spend.spent_tx_hash ≠ tx.hash then (.error .InvalidTransactionHash, s)
  else
    match amendedAmounts s tx spend with
    | .error e => (.error e, s)
    | .ok amounts =>
      match tx.verify amounts with
      | .error e => (.error e, s)
      | .ok _ =>
        match lookupMap s.dbc_ids spend.dbc_id with
        | some h =>
          if h = tx.hash then (.ok (), s.registerTx tx)
          else (.error .DbcAlreadySpent, s)
        | none =>
          (.ok (), ({ s with dbc_ids := s.dbc_ids ++ [(spend.dbc_id, tx.hash)] }).registerTx tx)

/-- Reachability of a spentbook state from a starting state by `log_spent`
calls. -/
inductive SpentbookNode.Reachable : SpentbookNode → SpentbookNode → Prop where
  | refl (s : SpentbookNode) : SpentbookNode.Reachable s s
  | step {s₀ s₁ : SpentbookNode} (tx : DbcTransaction) (spend : SignedSpend) :
      SpentbookNode.Reachable s₀ s₁ →
      SpentbookNode.Reachable s₀ (s₁.log_spent tx spend).2

/-- The C9 consistency invariant: every transaction hash stored in `dbc_ids`
is a key of `transactions`. -/
def SpentbookNode.ConsistentIdx (s : SpentbookNode) : Prop :=
  ∀ p ∈ s.dbc_ids, (lookupMap s.transactions p.2).isSome = true

/-- Registration invariant: every output of every stored transaction is
present in `outputs_by_input_id`. -/
def SpentbookNode.RegisteredOutputs (s : SpentbookNode) : Prop :=
  ∀ h tx, lookupMap s.transactions h = some tx →
    ∀ o ∈ tx.outputs, (lookupMap s.outputs_by_input_id o.dbc_id).isSome = true

/-- `OwnerOnce` per the spec: recipient addressing data (the owner types live
outside the repository sources; keys are natural-number identifiers). -/
structure OwnerOnce where
  owner_base : Nat
  derivation_index : Nat
deriving DecidableEq, Repr

/-- Modelled from the spec: deterministic one-time key derivation from an
owner base key and a derivation index (`owner.rs` is not part of the
repository sources); `Nat.pair` stands in for the injective derivation. -/
def deriveOnce (base idx : Nat) : DbcId :=
  ⟨Nat.pair base idx⟩

/-- `DbcContent` per the spec: owner base, derivation index and the revealed
amount (`dbc_content.rs` is not part of the repository sources). -/
structure DbcContent where
  owner_base : Nat
  derivation_index : Nat
  revealed_amount : RevealedAmount
deriving DecidableEq, Repr

/-- Modelled from the spec: a `SpentProof` attests that `public_key` was
spent in the transaction with `transaction_hash`, carries the input's
commitment (read back by the transaction+proofs verifier), and is signed by a
spentbook key (`spent_proof.rs` is not part of the repository sources). -/
structure SpentProof where
  public_key : DbcId
  transaction_hash : Hash
  blinded_amount : BlindedAmount
  spentbook_key : Nat
deriving DecidableEq, Repr

/-- Modelled from the spec: one threshold share of a spent proof. -/
structure SpentProofShare where
  public_key : DbcId
  blinded_amount : BlindedAmount
  spentbook_key : Nat
deriving DecidableEq, Repr

/-- Modelled from the spec: threshold reconstruction of a `SpentProof` bound
to the given transaction hash; reconstruction is abstracted to requiring a
non-empty agreeing share set, any failure aborting. -/
def SpentProof.try_from_proof_shares (pk : DbcId) (h : Hash)
    (shares : List SpentProofShare) : Except Error SpentProof :=
  match shares with
  | [] => .error .FailedToReconstructSpentProof
  | sh :: rest =>
    if rest.all (fun x => decide (x = sh)) then
      .ok { public_key := pk, transaction_hash := h
            blinded_amount := sh.blinded_amount, spentbook_key := sh.spentbook_key }
    else .error .FailedToReconstructSpentProof

/-- `Dbc` per the spec's data model (`dbc.rs` is not part of the repository
sources; `build_output_dbcs` constructs exactly these fields). -/
structure Dbc where
  content : DbcContent
  public_key : DbcId
  transaction : DbcTransaction
  inputs_spent_proofs : List SpentProof
  inputs_spent_transactions : List DbcTransaction
deriving DecidableEq, Repr

/-- Modelled from the spec: the key verifier is an abstraction over the trust
root — the set of currently authoritative spentbook keys. -/
structure SpentProofKeyVerifier where
  authoritative : List Nat
deriving DecidableEq, Repr

/-- `DbcBuilder` of `builder.rs`.  Sets and maps are association lists; the
`HashSet` of complete proofs and the share map keep insertion order, which
both build paths traverse identically. -/
structure DbcBuilder where
  transaction : DbcTransaction
  revealed_outputs : List RevealedOutput
  output_owner_map : List (DbcId × OwnerOnce)
  revealed_tx : RevealedTx
  spent_proofs : List SpentProof
  spent_proof_shares : List (DbcId × List SpentProofShare)
  spent_transactions : List (Hash × DbcTransaction)
deriving DecidableEq, Repr

/-- The share-reconstruction traversal of `DbcBuilder::spent_proofs`. -/
def reconstructAll (h : Hash) :
    List (DbcId × List SpentProofShare) → Except Error (List SpentProof)
  | [] => .ok []
  | (pk, shares) :: rest =>
    match SpentProof.try_from_proof_shares pk h shares with
    | .error e => .error e
    | .ok p =>
      match reconstructAll h rest with
      | .error e => .error e
      | .ok ps => .ok (p :: ps)

/-- `DbcBuilder::spent_proofs()` (named apart from the field of the same
name): reconstruct per-input shares bound to this transaction's hash and
union them with the already-complete proofs. -/
def DbcBuilder.resolved_spent_proofs (b : DbcBuilder) :
    Except Error (List SpentProof) :=
  match reconstructAll b.transaction.hash b.spent_proof_shares with
  | .error e => .error e
  | .ok ps => .ok (ps ++ b.spent_proofs)

/-- Modelled from the spec: the per-input commitment extraction of the
transaction+proofs verifier — every input must have exactly one matching
proof by `DbcId`. -/
def amountsFromProofs (proofs : List SpentProof) :
    List BlindedInput → Except Error (List BlindedAmount)
  | [] => .ok []
  | input :: rest =>
    match proofs.filter (fun p => decide (p.public_key = input.dbc_id)) with
    | [p] =>
      match amountsFromProofs proofs rest with
      | .ok tail => .ok (p.blinded_amount :: tail)
      | .error e => .error e
    | _ => .error .MissingSpentProofForInput

/-- Modelled from the spec: `TransactionVerifier::verify` — verify the
transaction under the commitments read from the proofs, require every proof
to refer to this transaction's hash, and require every proof's signing key to
be authoritative (`transaction_verifier.rs` is not part of the repository
sources). -/
def TransactionVerifier.verify (kv : SpentProofKeyVerifier)
    (tx : DbcTransaction) (proofs : List SpentProof) : Except Error Unit :=
  match amountsFromProofs proofs tx.inputs with
  | .error e => .error e
  | .ok amounts =>
    match tx.verify amounts with
    | .error e => .error e
    | .ok _ =>
      if ¬ proofs.all (fun p => decide (p.transaction_hash = tx.hash)) then
        .error .InvalidSpentProofTransactionHash
      else if ¬ proofs.all (fun p => decide (p.spentbook_key ∈ kv.authoritative)) then
        .error .FailedSpentProofSignature
      else .ok ()

/-- The owner-pairing traversal of `build_output_dbcs`: each blinded output's
owner is looked up in the owner map, a missing entry aborting with
`PublicKeyNotFound`. -/
def ownersFor (m : List (DbcId × OwnerOnce)) :
    List BlindedOutput → Except Error (List OwnerOnce)
  | [] => .ok []
  | o :: rest =>
    match lookupMap m o.dbc_id with
    | some ow =>
      match ownersFor m rest with
      | .ok tail => .ok (ow :: tail)
      | .error e => .error e
    | none => .error .PublicKeyNotFound

/-- The final Dbc-forming traversal of `build_output_dbcs`.  The source's
`assert_eq!(revealed_amounts.len(), 1)` panic is modelled as the
`BuildAssertionFailed` error. -/
def formOutputs (tx : DbcTransaction) (sp : List SpentProof)
    (spent_txs : List DbcTransaction)
    (obra : List (BlindedAmount × RevealedAmount)) :
    List (BlindedOutput × OwnerOnce) →
    Except Error (List (Dbc × OwnerOnce × RevealedAmount))
  | [] => .ok []
  | (output, owner_once) :: rest =>
    match (obra.filter (fun c => decide (c.1 = output.blinded_amount))).map
        (fun c => c.2) with
    | [r] =>
      let content : DbcContent :=
        { owner_base := owner_once.owner_base
          derivation_index := owner_once.derivation_index
          revealed_amount := r }
      let public_key := deriveOnce owner_once.owner_base owner_once.derivation_index
      let dbc : Dbc :=
        { content := content, public_key := public_key, transaction := tx
          inputs_spent_proofs := sp, inputs_spent_transactions := spent_txs }
      match formOutputs tx sp spent_txs obra rest with
      | .ok tail => .ok ((dbc, owner_once, r) :: tail)
      | .error e => .error e
    | _ => .error .BuildAssertionFailed

/-- `DbcBuilder::build_output_dbcs`. -/
def DbcBuilder.build_output_dbcs (b : DbcBuilder) (sp : List SpentProof) :
    Except Error (List (Dbc × OwnerOnce × RevealedAmount)) :=
  let obra := b.revealed_outputs.map
    (fun o => (o.revealed_amount.blinded_amount, o.revealed_amount))
  match ownersFor b.output_owner_map b.transaction.outputs with
  | .error e => .error e
  | .ok owner_once_list =>
    formOutputs b.transaction sp (b.spent_transactions.map (fun p => p.2)) obra
      (b.transaction.outputs.zip owner_once_list)

/-- `DbcBuilder::build`. -/
def DbcBuilder.build (b : DbcBuilder) (verifier : SpentProofKeyVerifier) :
    Except Error (List (Dbc × OwnerOnce × RevealedAmount)) :=
  match b.resolved_spent_proofs with
  | .error e => .error e
  | .ok sp =>
    match TransactionVerifier.verify verifier b.transaction sp with
    | .error e => .error e
    | .ok _ =>
      if ¬ sp.all (fun p => (lookupMap b.spent_transactions p.transaction_hash).isSome) then
        .error .MissingSpentTransaction
      else b.build_output_dbcs sp

/-- `DbcBuilder::build_without_verifying`. -/
def DbcBuilder.build_without_verifying (b : DbcBuilder) :
    Except Error (List (Dbc × OwnerOnce × RevealedAmount)) :=
  match b.resolved_spent_proofs with
  | .error e => .error e
  | .ok sp => b.build_output_dbcs sp

/-- A deterministic scalar stream for concrete instances. -/
def rng0 : Rng :=
  { seq := fun n => (n : Scalar) + 1, idx := 0 }

/-- The empty transaction (used as a dummy source transaction, mirroring the
source's own unit test). -/
def emptyTx : DbcTransaction :=
  { inputs := [], outputs := [] }

/-- A placeholder blinded output for total indexing in concrete statements. -/
def dummyBlindedOutput : BlindedOutput :=
  { dbc_id := ⟨0⟩
    range_proof := { v := 0, b := 0, bound := Transcript.new MERLIN_TRANSCRIPT_LABEL }
    blinded_amount := pcCommit 0 0 }

/-- A placeholder blinded input for total indexing in concrete statements. -/
def dummyBlindedInput : BlindedInput :=
  { dbc_id := ⟨0⟩, blinded_amount := pcCommit 0 0
    signature := { signer := ⟨0⟩, msg := [] } }

/-- Concrete genesis identity. -/
def gId : DbcId := ⟨1⟩

/-- Concrete genesis commitment: value 100 under blinding factor 5. -/
def gAmt : BlindedAmount := pcCommit 100 5

/-- A revealed transaction spending the genesis input of value 100 into one
output of value 100. -/
def rtx1 : RevealedTx :=
  { inputs := [{ input := { derived_key := ⟨1⟩
                            revealed_amount := { value := 100, blinding_factor := 5 } }
                 input_src_tx := emptyTx }]
    outputs := [{ dbc_id := ⟨2⟩, amount := 100 }] }

/-- The signed form of `rtx1`. -/
def signed1 : Except Error (DbcTransaction × List RevealedOutput) :=
  rtx1.sign rng0

/-- The transaction signed from `rtx1`. -/
def tx1 : DbcTransaction :=
  (signed1.toOption.map (fun p => p.1)).getD emptyTx

/-- The revealed outputs produced when signing `rtx1`. -/
def ro1 : List RevealedOutput :=
  (signed1.toOption.map (fun p => p.2)).getD []

/-- The genesis spend of `tx1`. -/
def spend1 : SignedSpend :=
  { dbc_id := gId, spent_tx_hash := tx1.hash }

/-- The empty starting spentbook over the concrete genesis. -/
def sb0 : SpentbookNode :=
  SpentbookNode.defaultState (gId, gAmt) 0

/-- The spentbook after successfully logging the genesis spend. -/
def sb1 : SpentbookNode :=
  (sb0.log_spent tx1 spend1).2

/-- A consistent later spend of the same id via a different (empty, hence
invalid) transaction. -/
def spend2 : SignedSpend :=
  { dbc_id := gId, spent_tx_hash := emptyTx.hash }

/-- A non-genesis signed spend naming `tx1`. -/
def spend3 : SignedSpend :=
  { dbc_id := ⟨9⟩, spent_tx_hash := tx1.hash }

/-- An unbalanced revealed transaction: input value 0 (nonzero blinding), no
outputs; its u64 value sums agree (both are 0). -/
def rtxC1 : RevealedTx :=
  { inputs := [{ input := { derived_key := ⟨3⟩
                            revealed_amount := { value := 0, blinding_factor := 1 } }
                 input_src_tx := emptyTx }]
    outputs := [] }

/-- A revealed transaction with no inputs and one output of value 1: its u64
value sums differ. -/
def rtxC2 : RevealedTx :=
  { inputs := [], outputs := [{ dbc_id := ⟨2⟩, amount := 1 }] }

/-- An overspending revealed transaction: input value 100, output value 101. -/
def rtx2 : RevealedTx :=
  { inputs := [{ input := { derived_key := ⟨1⟩
                            revealed_amount := { value := 100, blinding_factor := 5 } }
                 input_src_tx := emptyTx }]
    outputs := [{ dbc_id := ⟨2⟩, amount := 101 }] }

/-- The transaction signed from `rtx2`. -/
def tx2 : DbcTransaction :=
  ((rtx2.sign rng0).toOption.map (fun p => p.1)).getD emptyTx

/-- A two-output split of the genesis value. -/
def rtxC6 : RevealedTx :=
  { inputs := [{ input := { derived_key := ⟨1⟩
                            revealed_amount := { value := 100, blinding_factor := 5 } }
                 input_src_tx := emptyTx }]
    outputs := [{ dbc_id := ⟨2⟩, amount := 70 }, { dbc_id := ⟨3⟩, amount := 30 }] }

/-- The transaction signed from `rtxC6`. -/
def tx6 : DbcTransaction :=
  ((rtxC6.sign rng0).toOption.map (fun p => p.1)).getD emptyTx

/-- A transaction carrying a single input whose signature is bogus (wrong
signer, wrong message) and a zero commitment, with no outputs. -/
def txC3 : DbcTransaction :=
  { inputs := [{ dbc_id := ⟨1⟩, blinded_amount := pcCommit 0 0
                 signature := { signer := ⟨2⟩, msg := [] } }]
    outputs := [] }

/-- A concrete builder around `tx1`, carrying one complete spent proof signed
by spentbook key 7 and the matching spent transaction. -/
def builder1 : DbcBuilder :=
  { transaction := tx1
    revealed_outputs := ro1
    output_owner_map := [(⟨2⟩, { owner_base := 10, derivation_index := 4 })]
    revealed_tx := rtx1
    spent_proofs := [{ public_key := gId, transaction_hash := tx1.hash
                       blinded_amount := gAmt, spentbook_key := 7 }]
    spent_proof_shares := []
    spent_transactions := [(tx1.hash, tx1)] }

/-- A key verifier accepting spentbook key 7. -/
def kv1 : SpentProofKeyVerifier :=
  { authoritative := [7] }

/-- A sum of exponent pairs is the pair of componentwise sums. -/
theorem sumPairEq (l : List (Scalar × Scalar)) :
    l.sum = ((l.map Prod.fst).sum, (l.map Prod.snd).sum) := by
  induction l with
  | nil => rfl
  | cons x xs ih =>
    simp [List.sum_cons, ih, Prod.ext_iff]

/-- A left fold of addition over scalars is the sum shifted by the seed. -/
theorem foldlAddEq (l : List Scalar) : ∀ a : Scalar, l.foldl (· + ·) a = a + l.sum := by
  induction l with
  | nil => intro a; simp
  | cons x xs ih =>
    intro a
    simp only [List.foldl_cons, ih, List.sum_cons]
    ring

/-- A list of naturals all below a bound sums to at most length times the
bound. -/
theorem sumLeLenMul (B : Nat) : ∀ l : List Nat, (∀ x ∈ l, x < B) → l.sum ≤ l.length * B := by
  intro l
  induction l with
  | nil => intro _; simp
  | cons x xs ih =>
    intro h
    have hx : x < B := h x (List.mem_cons_self x xs)
    have hxs := ih (fun y hy => h y (List.mem_cons_of_mem x hy))
    simp only [List.sum_cons, List.length_cons]
    calc x + xs.sum ≤ B + xs.length * B := by omega
    _ = (xs.length + 1) * B := by ring

/-- Casting into the scalar field is injective below the group order. -/
theorem natCastInj {a b : Nat} (ha : a < ristrettoOrder) (hb : b < ristrettoOrder)
    (h : (a : Scalar) = (b : Scalar)) : a = b := by
  have hva := ZMod.val_cast_of_lt ha
  have hvb := ZMod.val_cast_of_lt hb
  rw [← hva, ← hvb, h]

/-- Splitting a nonempty list into its first part and its last element. -/
theorem takePredAppendGetLast {α : Type} :
    ∀ (l : List α) (h : l ≠ []), l.take (l.length - 1) ++ [l.getLast h] = l := by
  intro l
  induction l with
  | nil => intro h; exact absurd rfl h
  | cons a t ih =>
    intro _
    cases t with
    | nil => simp
    | cons b t' =>
      have hne : b :: t' ≠ [] := by simp
      have := ih hne
      simp only [List.length_cons, Nat.add_sub_cancel, List.take_succ_cons] at *
      rw [List.getLast_cons hne]
      simp only [List.cons_append, List.cons.injEq, true_and]
      simpa using this

/-- Indexing a zip of two lists. -/
theorem zipGet {α β : Type} :
    ∀ (l₁ : List α) (l₂ : List β) (i : Nat) (h₁ : i < l₁.length) (h₂ : i < l₂.length),
      (l₁.zip l₂).get? i = some (l₁.get ⟨i, h₁⟩, l₂.get ⟨i, h₂⟩) := by
  intro l₁
  induction l₁ with
  | nil => intro l₂ i h₁ h₂; simp at h₁
  | cons a t ih =>
    intro l₂ i h₁ h₂
    cases l₂ with
    | nil => simp at h₂
    | cons b t' =>
      cases i with
      | zero => simp [List.zip_cons_cons]
      | succ j =>
        simp only [List.zip_cons_cons, List.get?_cons_succ, List.get]
        exact ih t' j (by simpa using h₁) (by simpa using h₂)

/-- Appending entries does not disturb an existing binding. -/
theorem lookupAppendOfSome {α β : Type} [DecidableEq α] :
    ∀ (m m' : List (α × β)) (k : α) (v : β),
      lookupMap m k = some v → lookupMap (m ++ m') k = some v := by
  intro m m' k v
  induction m with
  | nil => intro h; simp [lookupMap] at h
  | cons p t ih =>
    intro h
    obtain ⟨k₀, v₀⟩ := p
    simp only [lookupMap, List.cons_append] at *
    by_cases hk : k₀ = k
    · simpa [hk] using h
    · simp only [hk, if_false] at h ⊢
      exact ih h

/-- A fresh binding appended to a map without one is found. -/
theorem lookupAppendSelf {α β : Type} [DecidableEq α] :
    ∀ (m : List (α × β)) (k : α) (v : β),
      lookupMap m k = none → lookupMap (m ++ [(k, v)]) k = some v := by
  intro m k v
  induction m with
  | nil => intro _; simp [lookupMap]
  | cons p t ih =>
    intro h
    obtain ⟨k₀, v₀⟩ := p
    simp only [lookupMap, List.cons_append] at *
    by_cases hk : k₀ = k
    · simp [hk] at h
    · simp only [hk, if_false] at h ⊢
      exact ih h

/-- `orInsert` never disturbs an existing binding (of any key). -/
theorem orInsertPreserves {α β : Type} [DecidableEq α]
    (m : List (α × β)) (k' : α) (v' : β) (k : α) (v : β)
    (h : lookupMap m k = some v) : lookupMap (orInsert m k' v') k = some v := by
  unfold orInsert orInsertGet
  cases hl : lookupMap m k' with
  | some _ => simpa using h
  | none => exact lookupAppendOfSome m [(k', v')] k v h

/-- After `orInsert m k v`, the key `k` is bound. -/
theorem orInsertBinds {α β : Type} [DecidableEq α]
    (m : List (α × β)) (k : α) (v : β) :
    (lookupMap (orInsert m k v) k).isSome = true := by
  unfold orInsert orInsertGet
  cases hl : lookupMap m k with
  | some w => simp [hl]
  | none => simp [lookupAppendSelf m k v hl]

/-- When the key is already bound, `orInsert` is the identity. -/
theorem orInsertNoop {α β : Type} [DecidableEq α]
    (m : List (α × β)) (k : α) (v : β)
    (h : (lookupMap m k).isSome = true) : orInsert m k v = m := by
  unfold orInsert orInsertGet
  cases hl : lookupMap m k with
  | some w => simp
  | none => rw [hl] at h; simp at h

/-- A fold of `orInsert` over outputs never disturbs an existing binding. -/
theorem foldlOrInsertPreserves :
    ∀ (l : List BlindedOutput) (m : List (DbcId × BlindedOutput)) (k : DbcId)
      (v : BlindedOutput), lookupMap m k = some v →
      lookupMap (l.foldl (fun m o => orInsert m o.dbc_id o) m) k = some v := by
  intro l
  induction l with
  | nil => intro m k v h; simpa using h
  | cons o t ih =>
    intro m k v h
    simp only [List.foldl_cons]
    exact ih _ k v (orInsertPreserves m o.dbc_id o k v h)

/-- A fold of `orInsert` binds every key of the folded list. -/
theorem foldlOrInsertBinds :
    ∀ (l : List BlindedOutput) (m : List (DbcId × BlindedOutput)) (o : BlindedOutput),
      o ∈ l → (lookupMap (l.foldl (fun m o => orInsert m o.dbc_id o) m) o.dbc_id).isSome = true := by
  intro l
  induction l with
  | nil => intro m o h; simp at h
  | cons o₀ t ih =>
    intro m o h
    simp only [List.foldl_cons]
    rcases List.mem_cons.mp h with h₀ | hmem
    · subst h₀
      cases hl : lookupMap (t.foldl (fun m o => orInsert m o.dbc_id o) (orInsert m o.dbc_id o)) o.dbc_id with
      | some _ => simp [hl]
      | none =>
        exfalso
        have hb := orInsertBinds m o.dbc_id o
        cases hx : lookupMap (orInsert m o.dbc_id o) o.dbc_id with
        | none => rw [hx] at hb; simp at hb
        | some w =>
          have := foldlOrInsertPreserves t _ o.dbc_id w hx
          rw [this] at hl
          simp at hl
    · exact ih _ o hmem

/-- A fold of `orInsert` over keys that are all already bound is the
identity. -/
theorem foldlOrInsertNoop :
    ∀ (l : List BlindedOutput) (m : List (DbcId × BlindedOutput)),
      (∀ o ∈ l, (lookupMap m o.dbc_id).isSome = true) →
      l.foldl (fun m o => orInsert m o.dbc_id o) m = m := by
  intro l
  induction l with
  | nil => intro m _; simp
  | cons o t ih =>
    intro m h
    simp only [List.foldl_cons]
    rw [orInsertNoop m o.dbc_id o (h o (List.mem_cons_self o t))]
    exact ih m (fun o' ho' => h o' (List.mem_cons_of_mem o ho'))

/-- Bound keys stay bound under `orInsert` folds. -/
theorem foldlOrInsertMono (l : List BlindedOutput) (m : List (DbcId × BlindedOutput))
    (k : DbcId) (h : (lookupMap m k).isSome = true) :
    (lookupMap (l.foldl (fun m o => orInsert m o.dbc_id o) m) k).isSome = true := by
  cases hx : lookupMap m k with
  | none => rw [hx] at h; simp at h
  | some v => simp [foldlOrInsertPreserves l m k v hx]

/-- Sampling keeps the output ids in order. -/
theorem sampleOutputsMapId :
    ∀ (l : List Output) (rng : Rng),
      (sampleOutputs l rng).1.map (fun r => r.dbc_id) = l.map (fun o => o.dbc_id) := by
  intro l
  induction l with
  | nil => intro rng; rfl
  | cons o t ih =>
    intro rng
    simp [sampleOutputs, Output.revealed_amount, Rng.next, ih]

/-- Sampling keeps the declared values in order. -/
theorem sampleOutputsMapValue :
    ∀ (l : List Output) (rng : Rng),
      (sampleOutputs l rng).1.map (fun r => r.revealed_amount.value)
        = l.map (fun o => o.amount) := by
  intro l
  induction l with
  | nil => intro rng; rfl
  | cons o t ih =>
    intro rng
    simp [sampleOutputs, Output.revealed_amount, Rng.next, ih]

/-- Sampling preserves length. -/
theorem sampleOutputsLength (l : List Output) (rng : Rng) :
    (sampleOutputs l rng).1.length = l.length := by
  have := congrArg List.length (sampleOutputsMapValue l rng)
  simpa using this

/-- Each sampled blinding factor is the corresponding fresh stream draw. -/
theorem sampleOutputsGetBlinding :
    ∀ (l : List Output) (rng : Rng) (i : Nat), i < l.length →
      ((sampleOutputs l rng).1.get? i).map (fun r => r.revealed_amount.blinding_factor)
        = some (rng.seq (rng.idx + i)) := by
  intro l
  induction l with
  | nil => intro rng i h; simp at h
  | cons o t ih =>
    intro rng i h
    cases i with
    | zero => simp [sampleOutputs, Output.revealed_amount, Rng.next]
    | succ j =>
      have hj : j < t.length := by simpa using h
      have := ih { rng with idx := rng.idx + 1 } j hj
      simp only [sampleOutputs, Output.revealed_amount, Rng.next, List.get?_cons_succ]
      simpa [Nat.add_assoc, Nat.add_comm 1 j] using this

/-- Unfolding of `adjusted_revealed_outputs` in the nonempty case: sampled
first part plus the corrected last output. -/
theorem adjustedEqConcat (rtx : RevealedTx) (ria : List RevealedAmount) (rng : Rng)
    (h : rtx.outputs ≠ []) :
    (rtx.adjusted_revealed_outputs ria rng).1
      = (sampleOutputs (rtx.outputs.take (rtx.outputs.length - 1)) rng).1
        ++ [{ dbc_id := (rtx.outputs.getLast h).dbc_id
              revealed_amount :=
                { value := (rtx.outputs.getLast h).amount
                  blinding_factor :=
                    (ria.map RevealedAmount.blinding_factor).foldl (· + ·) 0
                    - ((sampleOutputs (rtx.outputs.take (rtx.outputs.length - 1)) rng).1.map
                        (fun r => r.revealed_amount.blinding_factor)).foldl (· + ·) 0 } }] := by
  have hIE : rtx.outputs.isEmpty = false := by
    cases hx : rtx.outputs with
    | nil => exact absurd hx h
    | cons a t => rfl
  have hgl : rtx.outputs.getLast? = some (rtx.outputs.getLast h) :=
    List.getLast?_eq_getLast rtx.outputs h
  simp only [RevealedTx.adjusted_revealed_outputs, hIE, Bool.false_eq_true, if_false, hgl]

/-- The adjusted outputs keep the declared ids in order. -/
theorem adjustedMapId (rtx : RevealedTx) (ria : List RevealedAmount) (rng : Rng) :
    (rtx.adjusted_revealed_outputs ria rng).1.map (fun r => r.dbc_id)
      = rtx.outputs.map (fun o => o.dbc_id) := by
  by_cases h : rtx.outputs = []
  · simp [RevealedTx.adjusted_revealed_outputs, h]
  · rw [adjustedEqConcat rtx ria rng h]
    rw [List.map_append, sampleOutputsMapId]
    have := congrArg (List.map (fun o : Output => o.dbc_id))
      (takePredAppendGetLast rtx.outputs h)
    rw [List.map_append] at this
    simpa using this

/-- The adjusted outputs keep the declared values in order. -/
theorem adjustedMapValue (rtx : RevealedTx) (ria : List RevealedAmount) (rng : Rng) :
    (rtx.adjusted_revealed_outputs ria rng).1.map (fun r => r.revealed_amount.value)
      = rtx.outputs.map (fun o => o.amount) := by
  by_cases h : rtx.outputs = []
  · simp [RevealedTx.adjusted_revealed_outputs, h]
  · rw [adjustedEqConcat rtx ria rng h]
    rw [List.map_append, sampleOutputsMapValue]
    have := congrArg (List.map (fun o : Output => o.amount))
      (takePredAppendGetLast rtx.outputs h)
    rw [List.map_append] at this
    simpa using this

/-- With at least one output, the adjusted blinding factors sum to the input
blinding factors. -/
theorem adjustedSumBlinding (rtx : RevealedTx) (ria : List RevealedAmount) (rng : Rng)
    (h : rtx.outputs ≠ []) :
    ((rtx.adjusted_revealed_outputs ria rng).1.map
        (fun r => r.revealed_amount.blinding_factor)).sum
      = (ria.map RevealedAmount.blinding_factor).sum := by
  rw [adjustedEqConcat rtx ria rng h]
  rw [List.map_append, List.sum_append]
  simp only [List.map_cons, List.map_nil, List.sum_cons, List.sum_nil]
  rw [foldlAddEq, foldlAddEq]
  ring

/-- Proving succeeds whenever every value is in the 64-bit range. -/
theorem proveOutputsOk :
    ∀ (ros : List RevealedOutput) (ts : Transcript),
      (∀ o ∈ ros, o.revealed_amount.value < 2 ^ RANGE_PROOF_BITS) →
      ∃ bos ts', proveOutputs ts ros = .ok (bos, ts') := by
  intro ros
  induction ros with
  | nil => intro ts _; exact ⟨[], ts, rfl⟩
  | cons c t ih =>
    intro ts h
    have hc : c.revealed_amount.value < 2 ^ RANGE_PROOF_BITS :=
      h c (List.mem_cons_self c t)
    obtain ⟨bos, ts', hrec⟩ :=
      ih (ts.absorb c.revealed_amount.value c.revealed_amount.blinding_factor)
        (fun o ho => h o (List.mem_cons_of_mem c ho))
    refine ⟨{ dbc_id := c.dbc_id
              range_proof := { v := c.revealed_amount.value
                               b := c.revealed_amount.blinding_factor, bound := ts }
              blinded_amount := pcCommit c.revealed_amount.value
                c.revealed_amount.blinding_factor } :: bos, ts', ?_⟩
    simp only [proveOutputs, RangeProof.prove_single, hc, if_true, hrec]

/-- What a successful proving run produces: ids and commitments in order, a
replayable transcript trace, and a first proof bound to the initial state. -/
theorem proveOutputsSpec :
    ∀ (ros : List RevealedOutput) (ts : Transcript) (bos : List BlindedOutput)
      (ts' : Transcript), proveOutputs ts ros = .ok (bos, ts') →
      bos.map (fun o => o.dbc_id) = ros.map (fun r => r.dbc_id)
      ∧ bos.map (fun o => o.blinded_amount)
          = ros.map (fun c => pcCommit c.revealed_amount.value c.revealed_amount.blinding_factor)
      ∧ checkRangeProofs ts bos = .ok ts'
      ∧ (∀ b₀, bos.head? = some b₀ → b₀.range_proof.bound = ts) := by
  intro ros
  induction ros with
  | nil =>
    intro ts bos ts' h
    simp only [proveOutputs, Except.ok.injEq, Prod.mk.injEq] at h
    obtain ⟨h1, h2⟩ := h
    subst h1; subst h2
    refine ⟨rfl, rfl, rfl, ?_⟩
    intro b₀ hb
    simp at hb
  | cons c t ih =>
    intro ts bos ts' h
    by_cases hv : c.revealed_amount.value < 2 ^ RANGE_PROOF_BITS
    · rw [proveOutputs] at h
      rw [RangeProof.prove_single, if_pos hv] at h
      dsimp only at h
      cases hrec : proveOutputs
          (ts.absorb c.revealed_amount.value c.revealed_amount.blinding_factor) t with
      | error e => rw [hrec] at h; exact absurd h (by simp)
      | ok res₂ =>
        rw [hrec] at h
        obtain ⟨bos₂, ts₂⟩ := res₂
        simp only [Except.ok.injEq, Prod.mk.injEq] at h
        obtain ⟨hbos, hts⟩ := h
        subst hbos; subst hts
        obtain ⟨ihId, ihCm, ihCk, _⟩ := ih _ _ _ hrec
        refine ⟨by simp [ihId], by simp [ihCm], ?_, ?_⟩
        · rw [checkRangeProofs]
          rw [RangeProof.verify_single, if_pos ⟨rfl, rfl, hv⟩]
          exact ihCk
        · intro b₀ hb
          simp only [List.head?_cons, Option.some.injEq] at hb
          rw [← hb]
    · rw [proveOutputs] at h
      rw [RangeProof.prove_single, if_neg hv] at h
      exact absurd h (by simp)

/-- The input loop succeeds exactly when each input passes its check. -/
theorem checkInputsOkIff (msg : List MTok) :
    ∀ pairs : List (BlindedInput × BlindedAmount),
      checkInputs msg pairs = .ok () ↔
        ∀ p ∈ pairs, p.1.verify msg p.2 = .ok () := by
  intro pairs
  induction pairs with
  | nil => simp [checkInputs]
  | cons p t ih =>
    constructor
    · intro h q hq
      rw [checkInputs] at h
      cases hv : p.1.verify msg p.2 with
      | error e => rw [hv] at h; exact absurd h (by simp)
      | ok u =>
        rw [hv] at h
        rcases List.mem_cons.mp hq with h₀ | hmem
        · subst h₀; cases u; exact hv
        · exact (ih.mp h) q hmem
    · intro h
      rw [checkInputs]
      have hp := h p (List.mem_cons_self p t)
      rw [hp]
      exact ih.mpr (fun q hq => h q (List.mem_cons_of_mem p hq))

/-- The input loop surfaces the error of the first failing pair. -/
theorem checkInputsFirstError (msg : List MTok) (e : Error) :
    ∀ (pairs : List (BlindedInput × BlindedAmount)) (i : Nat) (hi : i < pairs.length),
      (∀ j (hj : j < i), (pairs.get ⟨j, Nat.lt_trans hj hi⟩).1.verify msg
        (pairs.get ⟨j, Nat.lt_trans hj hi⟩).2 = .ok ()) →
      (pairs.get ⟨i, hi⟩).1.verify msg (pairs.get ⟨i, hi⟩).2 = .error e →
      checkInputs msg pairs = .error e := by
  intro pairs
  induction pairs with
  | nil => intro i hi; simp at hi
  | cons p t ih =>
    intro i hi hpre herr
    cases i with
    | zero =>
      simp only [List.get] at herr
      rw [checkInputs, herr]
    | succ j =>
      have hp0 : p.1.verify msg p.2 = .ok () := by
        have := hpre 0 (Nat.succ_pos j)
        simpa using this
      rw [checkInputs, hp0]
      have hj : j < t.length := by simpa using hi
      refine ih j hj ?_ (by simpa using herr)
      intro k hk
      have := hpre (k + 1) (by omega)
      simpa using this

/-- An input-loop failure is surfaced by `verify` unchanged. -/
theorem verifyOfCheckInputsError (tx : DbcTransaction) (amounts : List BlindedAmount)
    (e : Error) (h : checkInputs tx.serialize_tx (tx.inputs.zip amounts) = .error e) :
    tx.verify amounts = .error e := by
  rw [DbcTransaction.verify]
  simp only [h]

/-- A successful `verify` passed its input loop. -/
theorem verifyOkCheckInputs (tx : DbcTransaction) (amounts : List BlindedAmount)
    (h : tx.verify amounts = .ok ()) :
    checkInputs tx.serialize_tx (tx.inputs.zip amounts) = .ok () := by
  rw [DbcTransaction.verify] at h
  cases hci : checkInputs tx.serialize_tx (tx.inputs.zip amounts) with
  | error e => rw [hci] at h; exact absurd h (by simp)
  | ok u => cases u; rfl

/-- Evaluation of `verify` once the signature loop and the range-proof loop
are known to pass, the inputs are nonempty and the input ids are distinct:
only the commitment-sum comparison remains. -/
theorem verifyEval (tx : DbcTransaction) (amounts : List BlindedAmount)
    (hci : checkInputs tx.serialize_tx (tx.inputs.zip amounts) = .ok ())
    (hcr : (checkRangeProofs (Transcript.new MERLIN_TRANSCRIPT_LABEL) tx.outputs).isOk = true)
    (hne : tx.inputs ≠ [])
    (hnd : (tx.inputs.map BlindedInput.dbc_id).Nodup) :
    tx.verify amounts =
      (if (tx.inputs.map BlindedInput.blinded_amount).sum
          = (tx.outputs.map BlindedOutput.blinded_amount).sum
       then .ok () else .error .InconsistentDbcTransaction) := by
  rw [DbcTransaction.verify]
  simp only [hci]
  cases hts : checkRangeProofs (Transcript.new MERLIN_TRANSCRIPT_LABEL) tx.outputs with
  | error e => rw [hts] at hcr; simp [Except.isOk, Except.toBool] at hcr
  | ok ts =>
    have hie : tx.inputs.isEmpty = false := by
      cases hx : tx.inputs with
      | nil => exact absurd hx hne
      | cons a t => rfl
    have hdd : (tx.inputs.map BlindedInput.dbc_id).dedup.length = tx.inputs.length := by
      rw [List.dedup_eq_self.mpr hnd, List.length_map]
    simp only [hie, Bool.false_eq_true, if_false, hdd, ne_eq, not_true_eq_false]
    by_cases hsum : (tx.inputs.map BlindedInput.blinded_amount).sum
        = (tx.outputs.map BlindedOutput.blinded_amount).sum
    · simp [hsum]
    · simp [hsum]

/-- The values carried by the adjusted outputs are the declared amounts. -/
theorem adjustedValuesBounded (rtx : RevealedTx) (ria : List RevealedAmount) (rng : Rng)
    (hv : ∀ o ∈ rtx.outputs, o.amount < 2 ^ RANGE_PROOF_BITS) :
    ∀ o ∈ (rtx.adjusted_revealed_outputs ria rng).1,
      o.revealed_amount.value < 2 ^ RANGE_PROOF_BITS := by
  intro o ho
  have hmem : o.revealed_amount.value
      ∈ (rtx.adjusted_revealed_outputs ria rng).1.map (fun r => r.revealed_amount.value) :=
    List.mem_map_of_mem _ ho
  rw [adjustedMapValue] at hmem
  obtain ⟨out, hout, heq⟩ := List.mem_map.mp hmem
  rw [← heq]
  exact hv out hout

/-- Every produced blinded output opens its own commitment with an in-range
value. -/
theorem proveOutputsOpens :
    ∀ (ros : List RevealedOutput) (ts : Transcript) (bos : List BlindedOutput)
      (ts' : Transcript), proveOutputs ts ros = .ok (bos, ts') →
      ∀ o ∈ bos, o.blinded_amount = pcCommit o.range_proof.v o.range_proof.b
        ∧ o.range_proof.v < 2 ^ RANGE_PROOF_BITS := by
  intro ros
  induction ros with
  | nil =>
    intro ts bos ts' h o ho
    simp only [proveOutputs, Except.ok.injEq, Prod.mk.injEq] at h
    rw [← h.1] at ho
    simp at ho
  | cons c t ih =>
    intro ts bos ts' h o ho
    by_cases hv : c.revealed_amount.value < 2 ^ RANGE_PROOF_BITS
    · rw [proveOutputs] at h
      rw [RangeProof.prove_single, if_pos hv] at h
      dsimp only at h
      cases hrec : proveOutputs
          (ts.absorb c.revealed_amount.value c.revealed_amount.blinding_factor) t with
      | error e => rw [hrec] at h; exact absurd h (by simp)
      | ok res₂ =>
        rw [hrec] at h
        obtain ⟨bos₂, ts₂⟩ := res₂
        simp only [Except.ok.injEq, Prod.mk.injEq] at h
        obtain ⟨hbos, hts⟩ := h
        rw [← hbos] at ho
        rcases List.mem_cons.mp ho with h₀ | hmem
        · subst h₀
          exact ⟨rfl, hv⟩
        · exact ih _ _ _ hrec o hmem
    · rw [proveOutputs] at h
      rw [RangeProof.prove_single, if_neg hv] at h
      exact absurd h (by simp)

/-- Characterization of a successful `sign` run: the signed transaction's
inputs carry the true identities and commitments in order, its outputs carry
the adjusted commitments in order, every input signature verifies over the
rebuilt message, and the range proofs replay on one fresh transcript. -/
theorem signCore (rtx : RevealedTx) (rng : Rng)
    (hv : ∀ o ∈ rtx.outputs, o.amount < 2 ^ RANGE_PROOF_BITS) :
    ∃ tx : DbcTransaction,
      rtx.sign rng = .ok (tx, (rtx.adjusted_revealed_outputs rtx.revealed_input_amounts rng).1)
      ∧ tx.inputs.map BlindedInput.dbc_id = rtx.input_ids
      ∧ tx.inputs.map BlindedInput.blinded_amount = rtx.blinded_input_amounts
      ∧ tx.inputs.length = rtx.inputs.length
      ∧ tx.outputs.map BlindedOutput.blinded_amount
          = (rtx.adjusted_revealed_outputs rtx.revealed_input_amounts rng).1.map
              (fun c => pcCommit c.revealed_amount.value c.revealed_amount.blinding_factor)
      ∧ tx.outputs.map (fun o => o.dbc_id)
          = (rtx.adjusted_revealed_outputs rtx.revealed_input_amounts rng).1.map
              (fun r => r.dbc_id)
      ∧ checkInputs tx.serialize_tx (tx.inputs.zip rtx.blinded_input_amounts) = .ok ()
      ∧ (checkRangeProofs (Transcript.new MERLIN_TRANSCRIPT_LABEL) tx.outputs).isOk = true
      ∧ (∀ b₀, tx.outputs.head? = some b₀ →
          b₀.range_proof.bound = Transcript.new MERLIN_TRANSCRIPT_LABEL)
      ∧ (∀ o ∈ tx.outputs, o.blinded_amount = pcCommit o.range_proof.v o.range_proof.b
          ∧ o.range_proof.v < 2 ^ RANGE_PROOF_BITS) := by
  set adj := (rtx.adjusted_revealed_outputs rtx.revealed_input_amounts rng).1 with hadj
  obtain ⟨bos, ts', hpo⟩ := proveOutputsOk adj (Transcript.new MERLIN_TRANSCRIPT_LABEL)
    (adjustedValuesBounded rtx rtx.revealed_input_amounts rng hv)
  obtain ⟨hId, hCm, hCk, hHd⟩ := proveOutputsSpec adj _ bos ts' hpo
  refine ⟨{ inputs := rtx.inputs.map (fun ih => ih.input.sign
              (serialize rtx.input_ids rtx.blinded_input_amounts bos))
            outputs := bos }, ?_, ?_, ?_, ?_, ?_, ?_, ?_, ?_, ?_, ?_⟩
  · rw [RevealedTx.sign]
    simp only [RevealedTx.blinded_outputs, ← hadj, hpo, Except.map]
  · simp only [List.map_map]
    rfl
  · simp only [List.map_map]
    rfl
  · simp [List.length_map]
  · simpa using hCm
  · simpa using hId
  · have hmsg : DbcTransaction.serialize_tx
        { inputs := rtx.inputs.map (fun ih => ih.input.sign
            (serialize rtx.input_ids rtx.blinded_input_amounts bos))
          outputs := bos }
        = serialize rtx.input_ids rtx.blinded_input_amounts bos := by
      rw [DbcTransaction.serialize_tx]
      simp only [List.map_map]
      rfl
    rw [hmsg]
    rw [show (rtx.inputs.map (fun ih => ih.input.sign
        (serialize rtx.input_ids rtx.blinded_input_amounts bos))).zip
          rtx.blinded_input_amounts
        = rtx.inputs.map (fun ih => (ih.input.sign
            (serialize rtx.input_ids rtx.blinded_input_amounts bos),
            ih.input.blinded_amount)) from ?_]
    · rw [checkInputsOkIff]
      intro p hp
      obtain ⟨ih, hih, hpe⟩ := List.mem_map.mp hp
      rw [← hpe]
      simp [BlindedInput.verify, RevealedInput.sign, DerivedKey.sign, DbcId.verify,
        RevealedInput.dbc_id]
    · rw [RevealedTx.blinded_input_amounts, List.zip_map']
  · simp only [hCk, Except.isOk, Except.toBool]
  · intro b₀ hb
    exact hHd b₀ hb
  · intro o ho
    exact proveOutputsOpens adj _ bos ts' hpo o ho

/-- A sum of commitments is the commitment of the summed opening. -/
theorem pcCommitSum {α : Type} (f : α → Nat) (g : α → Scalar) (l : List α) :
    (l.map (fun x => pcCommit (f x) (g x))).sum
      = ((((l.map f).sum : Nat) : Scalar), (l.map g).sum) := by
  rw [sumPairEq]
  simp only [List.map_map]
  rw [Nat.cast_list_sum, List.map_map]
  rfl

/-- The sum of the true input commitments, componentwise. -/
theorem inputSumEq (rtx : RevealedTx) :
    (rtx.blinded_input_amounts).sum
      = ((((rtx.inputs.map (fun ih => ih.input.revealed_amount.value)).sum : Nat) : Scalar),
          (rtx.inputs.map (fun ih => ih.input.revealed_amount.blinding_factor)).sum) := by
  have : rtx.blinded_input_amounts
      = rtx.inputs.map (fun ih => pcCommit ih.input.revealed_amount.value
          ih.input.revealed_amount.blinding_factor) := by
    rw [RevealedTx.blinded_input_amounts]
    rfl
  rw [this, pcCommitSum]

/-- Signing and then verifying under the true input commitments reduces to
the componentwise comparison of the summed openings. -/
theorem signThenVerify (rtx : RevealedTx) (rng : Rng)
    (h1 : rtx.inputs ≠ [])
    (h2 : rtx.input_ids.Nodup)
    (hv : ∀ o ∈ rtx.outputs, o.amount < 2 ^ RANGE_PROOF_BITS) :
    ∃ tx : DbcTransaction,
      rtx.sign rng = .ok (tx, (rtx.adjusted_revealed_outputs rtx.revealed_input_amounts rng).1)
      ∧ tx.verify rtx.blinded_input_amounts
          = (if ((((rtx.inputs.map (fun ih => ih.input.revealed_amount.value)).sum : Nat) : Scalar),
                  (rtx.inputs.map (fun ih => ih.input.revealed_amount.blinding_factor)).sum)
              = ((((rtx.outputs.map (fun o => o.amount)).sum : Nat) : Scalar),
                  ((rtx.adjusted_revealed_outputs rtx.revealed_input_amounts rng).1.map
                    (fun r => r.revealed_amount.blinding_factor)).sum)
             then .ok () else .error .InconsistentDbcTransaction) := by
  obtain ⟨tx, hsign, hIds, hAms, hLen, hOutCm, hOutId, hCi, hCr, hHd, hOp⟩ := signCore rtx rng hv
  refine ⟨tx, hsign, ?_⟩
  have hne : tx.inputs ≠ [] := by
    intro hx
    apply h1
    have := hLen
    rw [hx] at this
    simp only [List.length_nil] at this
    exact List.eq_nil_of_length_eq_zero this.symm
  have hnd : (tx.inputs.map BlindedInput.dbc_id).Nodup := by
    rw [hIds]; exact h2
  rw [verifyEval tx rtx.blinded_input_amounts hCi hCr hne hnd]
  rw [hAms, hOutCm, inputSumEq, pcCommitSum]
  rw [adjustedMapValue]

/-- Blinding factors of the revealed input amounts, restated over the input
histories. -/
theorem riaBlindingEq (rtx : RevealedTx) :
    rtx.revealed_input_amounts.map RevealedAmount.blinding_factor
      = rtx.inputs.map (fun ih => ih.input.revealed_amount.blinding_factor) := by
  rw [RevealedTx.revealed_input_amounts, List.map_map]
  rfl

/-- Claim C1, counterexample: the revealed transaction `rtxC1` has non-empty
inputs with distinct ids and equal u64 value sums (both 0, with no overflow),
`sign` succeeds, yet `verify` under the true input commitments rejects with
`InconsistentDbcTransaction`, because the empty output side cannot carry the
input's nonzero blinding factor. -/
theorem claim_C1_counterexample :
    rtxC1.inputs ≠ []
    ∧ rtxC1.input_ids.Nodup
    ∧ (rtxC1.inputs.map (fun ih => ih.input.revealed_amount.value)).sum % 2 ^ 64
        = (rtxC1.outputs.map (fun o => o.amount)).sum % 2 ^ 64
    ∧ (rtxC1.inputs.map (fun ih => ih.input.revealed_amount.value)).sum
        = (rtxC1.outputs.map (fun o => o.amount)).sum
    ∧ (rtxC1.sign rng0).isOk = true
    ∧ (rtxC1.sign rng0).map (fun p => p.1.verify rtxC1.blinded_input_amounts)
        = .ok (.error .InconsistentDbcTransaction) := by
  refine ⟨by decide, by decide, by decide, by decide, by decide, by decide⟩

/-- Claim C1 (amended): for every `RevealedTx` whose inputs are non-empty
with pairwise-distinct dbc_ids, whose output list is non-empty, whose output
values are u64, and whose input values sum equals its output values sum as
unbounded integers, `RevealedTx::sign` succeeds and `DbcTransaction::verify`
on the resulting transaction, called with the inputs' true blinded amounts in
input order, returns Ok. -/
theorem claim_C1 (rtx : RevealedTx) (rng : Rng)
    (h1 : rtx.inputs ≠ [])
    (h2 : rtx.input_ids.Nodup)
    (h3 : (rtx.inputs.map (fun ih => ih.input.revealed_amount.value)).sum
        = (rtx.outputs.map (fun o => o.amount)).sum)
    (h4 : rtx.outputs ≠ [])
    (h5 : ∀ o ∈ rtx.outputs, o.amount < 2 ^ 64) :
    (rtx.sign rng).isOk = true
    ∧ ∀ tx ro, rtx.sign rng = .ok (tx, ro) →
        tx.verify rtx.blinded_input_amounts = .ok () := by
  have hv : ∀ o ∈ rtx.outputs, o.amount < 2 ^ RANGE_PROOF_BITS := by
    simpa [RANGE_PROOF_BITS] using h5
  obtain ⟨tx, hsign, hverify⟩ := signThenVerify rtx rng h1 h2 hv
  constructor
  · rw [hsign]; rfl
  · intro tx' ro h
    rw [hsign] at h
    simp only [Except.ok.injEq, Prod.mk.injEq] at h
    obtain ⟨htx, hro⟩ := h
    subst htx
    rw [hverify, if_pos]
    refine Prod.ext ?_ ?_
    · simp only
      rw [h3]
    · simp only
      rw [adjustedSumBlinding rtx rtx.revealed_input_amounts rng h4, riaBlindingEq]

/-- Claim C1 witness: the balanced one-input one-output transaction `rtx1`
signs and verifies. -/
theorem claim_C1_witness :
    (rtx1.sign rng0).isOk = true
    ∧ tx1.verify rtx1.blinded_input_amounts = .ok () :=
  ⟨(claim_C1 rtx1 rng0 (by decide) (by decide) (by decide) (by decide) (by decide)).1,
    (claim_C1 rtx1 rng0 (by decide) (by decide) (by decide) (by decide) (by decide)).2
      tx1 ro1 (by decide)⟩

/-- Claim C2, counterexample: the revealed transaction `rtxC2` has differing
u64 value sums (0 vs 1) and `sign` succeeds, but `verify` under the true
(empty) input commitment list rejects with `MissingTxInputs`, not with
`InconsistentDbcTransaction`. -/
theorem claim_C2_counterexample :
    (rtxC2.inputs.map (fun ih => ih.input.revealed_amount.value)).sum % 2 ^ 64
        ≠ (rtxC2.outputs.map (fun o => o.amount)).sum % 2 ^ 64
    ∧ (rtxC2.sign rng0).isOk = true
    ∧ (rtxC2.sign rng0).map (fun p => p.1.verify rtxC2.blinded_input_amounts)
        = .ok (.error .MissingTxInputs)
    ∧ (rtxC2.sign rng0).map (fun p => p.1.verify rtxC2.blinded_input_amounts)
        ≠ .ok (.error .InconsistentDbcTransaction) := by
  refine ⟨by decide, by decide, by decide, by decide⟩

/-- The summed u64 values of a representable list stay below the group
order. -/
theorem sumValuesLtOrder (l : List Nat) (hv : ∀ x ∈ l, x < 2 ^ 64)
    (hl : l.length < 2 ^ 64) : l.sum < ristrettoOrder := by
  have h1 : l.sum ≤ l.length * 2 ^ 64 := sumLeLenMul (2 ^ 64) l hv
  have h2 : l.length * 2 ^ 64 < 2 ^ 64 * 2 ^ 64 :=
    Nat.mul_lt_mul_of_lt_of_le hl (Nat.le_refl _) (by norm_num)
  have h3 : (2 : Nat) ^ 64 * 2 ^ 64 < ristrettoOrder := by decide
  omega

/-- Claim C2 (amended): for every `RevealedTx` with non-empty inputs with
pairwise-distinct dbc_ids, representable u64 values and list lengths, whose
sum of input values differs from its sum of output values as u64,
`RevealedTx::sign` succeeds (the last-output blinding adjustment balances the
blinding factors), but `DbcTransaction::verify` on the result, called with
the true input blinded amounts, returns `InconsistentDbcTransaction`. -/
theorem claim_C2 (rtx : RevealedTx) (rng : Rng)
    (h1 : rtx.inputs ≠ [])
    (h2 : rtx.input_ids.Nodup)
    (hvi : ∀ ih ∈ rtx.inputs, ih.input.revealed_amount.value < 2 ^ 64)
    (hvo : ∀ o ∈ rtx.outputs, o.amount < 2 ^ 64)
    (hli : rtx.inputs.length < 2 ^ 64)
    (hlo : rtx.outputs.length < 2 ^ 64)
    (hdiff : (rtx.inputs.map (fun ih => ih.input.revealed_amount.value)).sum % 2 ^ 64
        ≠ (rtx.outputs.map (fun o => o.amount)).sum % 2 ^ 64) :
    (rtx.sign rng).isOk = true
    ∧ ∀ tx ro, rtx.sign rng = .ok (tx, ro) →
        tx.verify rtx.blinded_input_amounts = .error .InconsistentDbcTransaction := by
  have hv : ∀ o ∈ rtx.outputs, o.amount < 2 ^ RANGE_PROOF_BITS := by
    simpa [RANGE_PROOF_BITS] using hvo
  obtain ⟨tx, hsign, hverify⟩ := signThenVerify rtx rng h1 h2 hv
  have hinlt : (rtx.inputs.map (fun ih => ih.input.revealed_amount.value)).sum
      < ristrettoOrder := by
    refine sumValuesLtOrder _ ?_ (by simpa using hli)
    intro x hx
    obtain ⟨ih, hih, hxe⟩ := List.mem_map.mp hx
    rw [← hxe]
    exact hvi ih hih
  have houtlt : (rtx.outputs.map (fun o => o.amount)).sum < ristrettoOrder := by
    refine sumValuesLtOrder _ ?_ (by simpa using hlo)
    intro x hx
    obtain ⟨o, ho, hxe⟩ := List.mem_map.mp hx
    rw [← hxe]
    exact hvo o ho
  constructor
  · rw [hsign]; rfl
  · intro tx' ro h
    rw [hsign] at h
    simp only [Except.ok.injEq, Prod.mk.injEq] at h
    obtain ⟨htx, hro⟩ := h
    subst htx
    rw [hverify, if_neg]
    intro hcontra
    have hfst := congrArg Prod.fst hcontra
    simp only at hfst
    have := natCastInj hinlt houtlt hfst
    rw [this] at hdiff
    exact hdiff rfl

/-- Claim C2 witness: the overspend `rtx2` (100 in, 101 out) signs but is
rejected with `InconsistentDbcTransaction`. -/
theorem claim_C2_witness :
    (rtx2.sign rng0).isOk = true
    ∧ tx2.verify rtx2.blinded_input_amounts = .error .InconsistentDbcTransaction :=
  ⟨(claim_C2 rtx2 rng0 (by decide) (by decide) (by decide) (by decide) (by decide)
      (by decide) (by decide)).1,
    (claim_C2 rtx2 rng0 (by decide) (by decide) (by decide) (by decide) (by decide)
      (by decide) (by decide)).2 tx2
      ((rtx2.adjusted_revealed_outputs rtx2.revealed_input_amounts rng0).1) (by decide)⟩

/-- Claim C6, counterexample: in the two-output transaction signed from
`rtxC6`, the second output's range proof does not verify in isolation against
a freshly initialized "SN_DBC" transcript — the prover generated it on the
transcript state left behind by the first proof. -/
theorem claim_C6_counterexample :
    (rtxC6.sign rng0).isOk = true
    ∧ tx6.outputs.length = 2
    ∧ tx6.verify rtxC6.blinded_input_amounts = .ok ()
    ∧ (tx6.outputs.getD 1 dummyBlindedOutput).range_proof.verify_single
        (Transcript.new MERLIN_TRANSCRIPT_LABEL)
        (tx6.outputs.getD 1 dummyBlindedOutput).blinded_amount
        = .error .BulletProofs := by
  refine ⟨by decide, by decide, by decide, by decide⟩

/-- Claim C6 (amended): `RevealedTx::sign` generates all range proofs on one
shared Merlin transcript initialized with the fixed label "SN_DBC", each
proof bound to (and mutating) the transcript state in output order, and
`DbcTransaction::verify` replays them against a single identically
initialized transcript, so the whole sequence verifies; a proof verifies in
isolation against a fresh "SN_DBC" transcript exactly when it is bound to the
initial state, which holds for the first output but not in general for later
ones. -/
theorem claim_C6 (rtx : RevealedTx) (rng : Rng) (tx : DbcTransaction)
    (ro : List RevealedOutput)
    (hv : ∀ o ∈ rtx.outputs, o.amount < 2 ^ 64)
    (hsign : rtx.sign rng = .ok (tx, ro)) :
    (checkRangeProofs (Transcript.new MERLIN_TRANSCRIPT_LABEL) tx.outputs).isOk = true
    ∧ ∀ b₀, tx.outputs.head? = some b₀ →
        (b₀.range_proof.verify_single (Transcript.new MERLIN_TRANSCRIPT_LABEL)
          b₀.blinded_amount).isOk = true := by
  have hv' : ∀ o ∈ rtx.outputs, o.amount < 2 ^ RANGE_PROOF_BITS := by
    simpa [RANGE_PROOF_BITS] using hv
  obtain ⟨tx', hsign', hIds, hAms, hLen, hOutCm, hOutId, hCi, hCr, hHd, hOp⟩ :=
    signCore rtx rng hv'
  rw [hsign'] at hsign
  simp only [Except.ok.injEq, Prod.mk.injEq] at hsign
  obtain ⟨htx, _⟩ := hsign
  subst htx
  refine ⟨hCr, ?_⟩
  intro b₀ hb
  have hbound := hHd b₀ hb
  have hmem : b₀ ∈ tx'.outputs := by
    cases hx : tx'.outputs with
    | nil => rw [hx] at hb; simp at hb
    | cons a t =>
      rw [hx] at hb
      simp only [List.head?_cons, Option.some.injEq] at hb
      subst hb
      exact List.mem_cons_self a t
  obtain ⟨hopen, hrange⟩ := hOp b₀ hmem
  rw [RangeProof.verify_single, if_pos ⟨hbound, hopen, hrange⟩]
  rfl

/-- Claim C6 witness: the full range-proof sequence of the two-output
transaction `tx6` replays on one fresh "SN_DBC" transcript. -/
theorem claim_C6_witness :
    (checkRangeProofs (Transcript.new MERLIN_TRANSCRIPT_LABEL) tx6.outputs).isOk = true :=
  (claim_C6 rtxC6 rng0 tx6
    ((rtxC6.adjusted_revealed_outputs rtxC6.revealed_input_amounts rng0).1)
    (by decide) (by decide)).1

/-- Claim C8: for a non-empty output list, `adjusted_revealed_outputs` keeps
each output's declared value and dbc_id in order, gives every output except
the last a freshly drawn random blinding factor, and sets the last output's
blinding factor to the input blinding sum minus the other outputs' blinding
sum, so that output and input blinding sums agree; for an empty output list
the result is empty (no adjustment and no panic); `sign` returns exactly
these revealed outputs. -/
theorem claim_C8 (rtx : RevealedTx) (rng : Rng) :
    (rtx.outputs = [] →
      rtx.adjusted_revealed_outputs rtx.revealed_input_amounts rng = ([], rng))
    ∧ (rtx.outputs ≠ [] →
        ((rtx.adjusted_revealed_outputs rtx.revealed_input_amounts rng).1.map
            (fun r => r.dbc_id) = rtx.outputs.map (fun o => o.dbc_id))
        ∧ ((rtx.adjusted_revealed_outputs rtx.revealed_input_amounts rng).1.map
            (fun r => r.revealed_amount.value) = rtx.outputs.map (fun o => o.amount))
        ∧ (∀ i, i < rtx.outputs.length - 1 →
            ((rtx.adjusted_revealed_outputs rtx.revealed_input_amounts rng).1.get? i).map
                (fun r => r.revealed_amount.blinding_factor)
              = some (rng.seq (rng.idx + i)))
        ∧ ((rtx.adjusted_revealed_outputs rtx.revealed_input_amounts rng).1.getLast?.map
              (fun r => r.revealed_amount.blinding_factor)
            = some ((rtx.revealed_input_amounts.map RevealedAmount.blinding_factor).sum
                - (((rtx.adjusted_revealed_outputs rtx.revealed_input_amounts rng).1.dropLast).map
                    (fun r => r.revealed_amount.blinding_factor)).sum))
        ∧ (((rtx.adjusted_revealed_outputs rtx.revealed_input_amounts rng).1.map
              (fun r => r.revealed_amount.blinding_factor)).sum
            = (rtx.revealed_input_amounts.map RevealedAmount.blinding_factor).sum))
    ∧ (∀ tx ro, rtx.sign rng = .ok (tx, ro) →
        ro = (rtx.adjusted_revealed_outputs rtx.revealed_input_amounts rng).1) := by
  refine ⟨?_, ?_, ?_⟩
  · intro h
    simp [RevealedTx.adjusted_revealed_outputs, h]
  · intro h
    refine ⟨adjustedMapId rtx _ rng, adjustedMapValue rtx _ rng, ?_, ?_,
      adjustedSumBlinding rtx _ rng h⟩
    · intro i hi
      rw [adjustedEqConcat rtx _ rng h]
      have hlt : i < ((sampleOutputs (rtx.outputs.take (rtx.outputs.length - 1)) rng).1).length := by
        rw [sampleOutputsLength, List.length_take]
        omega
      rw [List.get?_append hlt]
      refine sampleOutputsGetBlinding _ rng i ?_
      rw [List.length_take]
      omega
    · rw [adjustedEqConcat rtx _ rng h]
      rw [List.getLast?_concat, List.dropLast_concat]
      simp only [Option.map_some']
      rw [foldlAddEq, foldlAddEq, zero_add, zero_add]
  · intro tx ro hs
    rw [RevealedTx.sign] at hs
    rcases hpair : rtx.adjusted_revealed_outputs rtx.revealed_input_amounts rng with ⟨adj, rng'⟩
    rw [hpair] at hs
    dsimp only at hs
    cases hpo : RevealedTx.blinded_outputs adj with
    | error e => rw [hpo] at hs; exact absurd hs (by simp)
    | ok bos =>
      rw [hpo] at hs
      simp only [Except.ok.injEq, Prod.mk.injEq] at hs
      exact hs.2.symm

/-- Claim C8 witness: the split `rtxC6` (70/30 from one input) keeps its
declared values and draws its first blinding factor from the stream. -/
theorem claim_C8_witness :
    (rtxC6.adjusted_revealed_outputs rtxC6.revealed_input_amounts rng0).1.map
        (fun r => r.revealed_amount.value) = rtxC6.outputs.map (fun o => o.amount)
    ∧ ((rtxC6.adjusted_revealed_outputs rtxC6.revealed_input_amounts rng0).1.map
        (fun r => r.revealed_amount.blinding_factor)).sum
      = (rtxC6.revealed_input_amounts.map RevealedAmount.blinding_factor).sum :=
  ⟨((claim_C8 rtxC6 rng0).2.1 (by decide)).2.1,
    ((claim_C8 rtxC6 rng0).2.1 (by decide)).2.2.2.2⟩

/-- A successful input check means commitment match and signature validity. -/
theorem blindedInputVerifyOkIff (i : BlindedInput) (msg : List MTok)
    (a : BlindedAmount) :
    i.verify msg a = .ok () ↔
      i.blinded_amount = a ∧ DbcId.verify i.dbc_id i.signature msg = true := by
  rw [BlindedInput.verify]
  by_cases h1 : i.blinded_amount = a
  · simp only [h1, ne_eq, not_true_eq_false, if_false]
    cases h2 : DbcId.verify i.dbc_id i.signature msg with
    | true => simp
    | false => simp
  · simp [h1]

/-- A commitment mismatch yields `InvalidInputBlindedAmount`. -/
theorem blindedInputVerifyMismatch (i : BlindedInput) (msg : List MTok)
    (a : BlindedAmount) (h : i.blinded_amount ≠ a) :
    i.verify msg a = .error .InvalidInputBlindedAmount := by
  rw [BlindedInput.verify, if_pos h]

/-- A matching commitment with an invalid signature yields
`InvalidSignature`. -/
theorem blindedInputVerifyBadSig (i : BlindedInput) (msg : List MTok)
    (a : BlindedAmount) (h1 : i.blinded_amount = a)
    (h2 : DbcId.verify i.dbc_id i.signature msg = false) :
    i.verify msg a = .error .InvalidSignature := by
  rw [BlindedInput.verify, if_neg (by simp [h1]), if_pos h2]

/-- The zipped pair at a common index. -/
theorem zipPairAt (tx : DbcTransaction) (expected : List BlindedAmount) (i : Nat)
    (h1 : i < tx.inputs.length) (h2 : i < expected.length) (hz : i < (tx.inputs.zip expected).length) :
    (tx.inputs.zip expected).get ⟨i, hz⟩ = (tx.inputs.get ⟨i, h1⟩, expected.get ⟨i, h2⟩) := by
  have hq := zipGet tx.inputs expected i h1 h2
  have hg : (tx.inputs.zip expected).get? i = some ((tx.inputs.zip expected).get ⟨i, hz⟩) :=
    List.get?_eq_get hz
  rw [hq] at hg
  exact (Option.some.inj hg).symm

/-- Claim C3 (amended): `verify` cross-checks exactly the first
min(inputs.len, expected.len) inputs — the zip truncates, so inputs beyond
the expected-amounts list are not checked at all.  Within that range: if
`verify` returns Ok then each carried commitment equals the expected one and
each signature verifies over the canonical message; at the first failing
index, a commitment mismatch yields `InvalidInputBlindedAmount` and a bad
signature yields `InvalidSignature`. -/
theorem claim_C3 (tx : DbcTransaction) (expected : List BlindedAmount) :
    (tx.verify expected = .ok () →
      ∀ i (h1 : i < tx.inputs.length) (h2 : i < expected.length),
        (tx.inputs.get ⟨i, h1⟩).blinded_amount = expected.get ⟨i, h2⟩
        ∧ DbcId.verify (tx.inputs.get ⟨i, h1⟩).dbc_id
            (tx.inputs.get ⟨i, h1⟩).signature tx.serialize_tx = true)
    ∧ (∀ i (h1 : i < tx.inputs.length) (h2 : i < expected.length),
        (∀ j (hj : j < i),
          (tx.inputs.get ⟨j, Nat.lt_trans hj h1⟩).blinded_amount
              = expected.get ⟨j, Nat.lt_trans hj h2⟩
          ∧ DbcId.verify (tx.inputs.get ⟨j, Nat.lt_trans hj h1⟩).dbc_id
              (tx.inputs.get ⟨j, Nat.lt_trans hj h1⟩).signature tx.serialize_tx = true) →
        (tx.inputs.get ⟨i, h1⟩).blinded_amount ≠ expected.get ⟨i, h2⟩ →
        tx.verify expected = .error .InvalidInputBlindedAmount)
    ∧ (∀ i (h1 : i < tx.inputs.length) (h2 : i < expected.length),
        (∀ j (hj : j < i),
          (tx.inputs.get ⟨j, Nat.lt_trans hj h1⟩).blinded_amount
              = expected.get ⟨j, Nat.lt_trans hj h2⟩
          ∧ DbcId.verify (tx.inputs.get ⟨j, Nat.lt_trans hj h1⟩).dbc_id
              (tx.inputs.get ⟨j, Nat.lt_trans hj h1⟩).signature tx.serialize_tx = true) →
        (tx.inputs.get ⟨i, h1⟩).blinded_amount = expected.get ⟨i, h2⟩ →
        DbcId.verify (tx.inputs.get ⟨i, h1⟩).dbc_id
            (tx.inputs.get ⟨i, h1⟩).signature tx.serialize_tx = false →
        tx.verify expected = .error .InvalidSignature) := by
  refine ⟨?_, ?_, ?_⟩
  · intro hok i h1 h2
    have hci := verifyOkCheckInputs tx expected hok
    have hz : i < (tx.inputs.zip expected).length := by
      rw [List.length_zip]
      exact Nat.lt_min.mpr ⟨h1, h2⟩
    have hmem : (tx.inputs.zip expected).get ⟨i, hz⟩ ∈ tx.inputs.zip expected :=
      List.get_mem _ _ _
    have := (checkInputsOkIff tx.serialize_tx (tx.inputs.zip expected)).mp hci _ hmem
    rw [zipPairAt tx expected i h1 h2 hz] at this
    exact (blindedInputVerifyOkIff _ _ _).mp this
  · intro i h1 h2 hpre hmis
    refine verifyOfCheckInputsError tx expected _ ?_
    have hz : i < (tx.inputs.zip expected).length := by
      rw [List.length_zip]
      exact Nat.lt_min.mpr ⟨h1, h2⟩
    refine checkInputsFirstError tx.serialize_tx _ (tx.inputs.zip expected) i hz ?_ ?_
    · intro j hj
      have hj1 : j < tx.inputs.length := Nat.lt_trans hj h1
      have hj2 : j < expected.length := Nat.lt_trans hj h2
      rw [zipPairAt tx expected j hj1 hj2 (Nat.lt_trans hj hz)]
      obtain ⟨ha, hs⟩ := hpre j hj
      exact (blindedInputVerifyOkIff _ _ _).mpr ⟨ha, hs⟩
    · rw [zipPairAt tx expected i h1 h2 hz]
      exact blindedInputVerifyMismatch _ _ _ hmis
  · intro i h1 h2 hpre hmatch hbad
    refine verifyOfCheckInputsError tx expected _ ?_
    have hz : i < (tx.inputs.zip expected).length := by
      rw [List.length_zip]
      exact Nat.lt_min.mpr ⟨h1, h2⟩
    refine checkInputsFirstError tx.serialize_tx _ (tx.inputs.zip expected) i hz ?_ ?_
    · intro j hj
      have hj1 : j < tx.inputs.length := Nat.lt_trans hj h1
      have hj2 : j < expected.length := Nat.lt_trans hj h2
      rw [zipPairAt tx expected j hj1 hj2 (Nat.lt_trans hj hz)]
      obtain ⟨ha, hs⟩ := hpre j hj
      exact (blindedInputVerifyOkIff _ _ _).mpr ⟨ha, hs⟩
    · rw [zipPairAt tx expected i h1 h2 hz]
      exact blindedInputVerifyBadSig _ _ _ hmatch hbad

/-- Claim C3, counterexample: `txC3` carries one input whose signature does
not verify (and whose commitment is never compared), yet `verify` with an
empty expected-amounts list returns Ok — the zip silently drops every input
beyond the expected list, so "every index below inputs.len is cross-checked"
fails. -/
theorem claim_C3_counterexample :
    txC3.verify [] = .ok ()
    ∧ txC3.inputs.length = 1
    ∧ DbcId.verify (txC3.inputs.getD 0 dummyBlindedInput).dbc_id
        (txC3.inputs.getD 0 dummyBlindedInput).signature txC3.serialize_tx = false := by
  refine ⟨by decide, by decide, by decide⟩

/-- Claim C3 witness: in the verified transaction `tx1`, the (single) input
within the zipped range carries the expected commitment and a valid
signature. -/
theorem claim_C3_witness :
    (tx1.inputs.get ⟨0, by decide⟩).blinded_amount = [gAmt].get ⟨0, by decide⟩
    ∧ DbcId.verify (tx1.inputs.get ⟨0, by decide⟩).dbc_id
        (tx1.inputs.get ⟨0, by decide⟩).signature tx1.serialize_tx = true :=
  (claim_C3 tx1 [gAmt]).1 (by decide) 0 (by decide) (by decide)

/-- The terminal per-id transition of `log_spent_worker`, in entry form on
the left and lookup form on the right. -/
theorem entryStepEq (s : SpentbookNode) (tx : DbcTransaction) (spend : SignedSpend) :
    (let (existing_tx_hash, dbc_ids') := orInsertGet s.dbc_ids spend.dbc_id tx.hash
     if existing_tx_hash = tx.hash then
       let (existing_tx, transactions') := orInsertGet s.transactions tx.hash tx
       let outputs' := existing_tx.outputs.foldl (fun m o => orInsert m o.dbc_id o)
         s.outputs_by_input_id
       ((.ok (), { s with dbc_ids := dbc_ids', transactions := transactions'
                          outputs_by_input_id := outputs' }) : Except Error Unit × SpentbookNode)
     else (.error .DbcAlreadySpent, { s with dbc_ids := dbc_ids' }))
    = (match lookupMap s.dbc_ids spend.dbc_id with
      | some h =>
        if h = tx.hash then ((.ok (), s.registerTx tx) : Except Error Unit × SpentbookNode)
        else (.error .DbcAlreadySpent, s)
      | none =>
        (.ok (), ({ s with dbc_ids := s.dbc_ids ++ [(spend.dbc_id, tx.hash)] }).registerTx tx)) := by
  cases hl : lookupMap s.dbc_ids spend.dbc_id with
  | some h =>
    by_cases hht : h = tx.hash
    · subst hht
      cases hl2 : lookupMap s.transactions tx.hash with
      | some t => simp [orInsertGet, hl, hl2, SpentbookNode.registerTx, orInsert]
      | none => simp [orInsertGet, hl, hl2, SpentbookNode.registerTx, orInsert]
    · simp [orInsertGet, hl, hht]
  | none =>
    cases hl2 : lookupMap s.transactions tx.hash with
    | some t => simp [orInsertGet, hl, hl2, SpentbookNode.registerTx, orInsert]
    | none => simp [orInsertGet, hl, hl2, SpentbookNode.registerTx, orInsert]

/-- `log_spent` computes exactly the amended pipeline: the genesis branch is
selected by the signed spend's identity (a singleton commitment list);
otherwise the commitments come from per-input lookups. -/
theorem logSpentEqAmended (s : SpentbookNode) (tx : DbcTransaction) (spend : SignedSpend) :
    s.log_spent tx spend = s.logSpentAmended tx spend := by
  rw [SpentbookNode.log_spent, SpentbookNode.log_spent_worker, SpentbookNode.logSpentAmended]
  by_cases hh : tx.hash = spend.spent_tx_hash
  · rw [if_neg (by simp [hh]), if_neg (by intro hc; exact absurd hc.symm (by simp [hh]))]
    by_cases hg : spend.dbc_id = s.genesis.1
    · simp only [amendedAmounts, if_pos hg]
      cases hv : tx.verify [s.genesis.2] with
      | error e => simp [hv]
      | ok u =>
        cases u
        simp only [List.map_cons, List.map_nil, hv]
        exact entryStepEq s tx spend
    · simp only [amendedAmounts, if_neg hg]
      cases hla : lookupAmounts s.outputs_by_input_id tx.inputs with
      | error e => simp [hla, Except.map]
      | ok pairs =>
        simp only [hla, Except.map]
        cases hv : tx.verify (pairs.map (fun p => p.2)) with
        | error e => simp [hv]
        | ok u =>
          cases u
          simp only [hv]
          exact entryStepEq s tx spend
  · rw [if_pos (by simp [hh]), if_pos (by intro hc; exact hh hc.symm)]

/-- Claim C5, counterexample: with the default spentbook and a signed spend
naming a non-genesis id ⟨9⟩, the claimed per-input genesis fallback would
accept the genesis-spending transaction `tx1`, but `log_spent` branches on
the signed spend's id and instead fails the per-input lookup with
`MissingAmountForDbcId` for the genesis input. -/
theorem claim_C5_counterexample :
    spend3.dbc_id ≠ sb0.genesis.1
    ∧ (sb0.logSpentClaimed tx1 spend3).1 = .ok ()
    ∧ (sb0.log_spent tx1 spend3).1 = .error (.MissingAmountForDbcId gId)
    ∧ sb0.log_spent tx1 spend3 ≠ sb0.logSpentClaimed tx1 spend3 := by
  refine ⟨by decide, by decide, by decide, by decide⟩

/-- Claim C5 (amended): in `SpentbookNode::log_spent`, the commitment list
passed to `tx.verify` is selected by the signed spend's dbc_id: if it equals
the genesis id, the single stored genesis commitment is the entire list
(regardless of `tx.inputs`); otherwise, for each input of `tx.inputs` the
commitment is `outputs_by_input_id[input.dbc_id].blinded_amount`, a missing
entry failing with `MissingAmountForDbcId` for that input's id — `log_spent`
equals this amended pipeline on every state and every call. -/
theorem claim_C5 (s : SpentbookNode) (tx : DbcTransaction) (spend : SignedSpend) :
    s.log_spent tx spend = s.logSpentAmended tx spend :=
  logSpentEqAmended s tx spend

/-- Inversion of a failing `log_spent`: every error path leaves the state
untouched. -/
theorem logSpentErrorPreserves (s : SpentbookNode) (tx : DbcTransaction)
    (spend : SignedSpend) (e : Error) (s' : SpentbookNode)
    (h : s.log_spent tx spend = (.error e, s')) : s' = s := by
  rw [logSpentEqAmended, SpentbookNode.logSpentAmended] at h
  by_cases hh : spend.spent_tx_hash = tx.hash
  · rw [if_neg (by simp [hh])] at h
    cases ha : amendedAmounts s tx spend with
    | error e' =>
      rw [ha] at h
      dsimp only at h
      exact (congrArg Prod.snd h).symm
    | ok as =>
      rw [ha] at h
      dsimp only at h
      cases hv : tx.verify as with
      | error e' =>
        rw [hv] at h
        dsimp only at h
        exact (congrArg Prod.snd h).symm
      | ok u =>
        cases u
        rw [hv] at h
        dsimp only at h
        cases hl : lookupMap s.dbc_ids spend.dbc_id with
        | some h₀ =>
          rw [hl] at h
          dsimp only at h
          by_cases hht : h₀ = tx.hash
          · rw [if_pos hht] at h
            exact absurd (congrArg Prod.fst h) (by simp)
          · rw [if_neg hht] at h
            exact (congrArg Prod.snd h).symm
        | none =>
          rw [hl] at h
          dsimp only at h
          exact absurd (congrArg Prod.fst h) (by simp)
  · rw [if_pos (by intro hc; exact hh hc)] at h
    exact (congrArg Prod.snd h).symm

/-- Inversion of a successful `log_spent`: the hash check passed, the
resolved commitments verified, and the new state is the registration over
either an existing identical binding or a fresh one. -/
theorem logSpentOkState (s : SpentbookNode) (tx : DbcTransaction)
    (spend : SignedSpend) (s₁ : SpentbookNode)
    (h : s.log_spent tx spend = (.ok (), s₁)) :
    spend.spent_tx_hash = tx.hash
    ∧ (∃ as, amendedAmounts s tx spend = .ok as ∧ tx.verify as = .ok ())
    ∧ ((lookupMap s.dbc_ids spend.dbc_id = some tx.hash ∧ s₁ = s.registerTx tx)
       ∨ (lookupMap s.dbc_ids spend.dbc_id = none
          ∧ s₁ = ({ s with dbc_ids := s.dbc_ids ++ [(spend.dbc_id, tx.hash)] }).registerTx tx)) := by
  rw [logSpentEqAmended, SpentbookNode.logSpentAmended] at h
  by_cases hh : spend.spent_tx_hash = tx.hash
  · rw [if_neg (by simp [hh])] at h
    cases ha : amendedAmounts s tx spend with
    | error e' =>
      rw [ha] at h
      dsimp only at h
      exact absurd (congrArg Prod.fst h) (by simp)
    | ok as =>
      rw [ha] at h
      dsimp only at h
      cases hv : tx.verify as with
      | error e' =>
        rw [hv] at h
        dsimp only at h
        exact absurd (congrArg Prod.fst h) (by simp)
      | ok u =>
        cases u
        rw [hv] at h
        dsimp only at h
        refine ⟨hh, ⟨as, rfl, hv⟩, ?_⟩
        cases hl : lookupMap s.dbc_ids spend.dbc_id with
        | some h₀ =>
          rw [hl] at h
          dsimp only at h
          by_cases hht : h₀ = tx.hash
          · rw [if_pos hht] at h
            subst hht
            exact Or.inl ⟨rfl, (congrArg Prod.snd h).symm⟩
          · rw [if_neg hht] at h
            exact absurd (congrArg Prod.fst h) (by simp)
        | none =>
          rw [hl] at h
          dsimp only at h
          exact Or.inr ⟨rfl, (congrArg Prod.snd h).symm⟩
  · rw [if_pos (by intro hc; exact hh hc)] at h
    exact absurd (congrArg Prod.fst h) (by simp)

/-- Claim C7: whenever `log_spent` returns an error — `InvalidTransactionHash`,
`MissingAmountForDbcId`, any transaction-verification failure, or
`DbcAlreadySpent` — the node's entire state (transactions, dbc_ids,
outputs_by_input_id and the genesis entry) is exactly what it was before the
call. -/
theorem claim_C7 (s : SpentbookNode) (tx : DbcTransaction) (spend : SignedSpend)
    (e : Error) (s' : SpentbookNode)
    (h : s.log_spent tx spend = (.error e, s')) :
    s' = s :=
  logSpentErrorPreserves s tx spend e s' h

/-- Claim C7 witness: the rejected non-genesis spend of `tx1` on the empty
spentbook leaves the state untouched. -/
theorem claim_C7_witness :
    (sb0.log_spent tx1 spend3).2 = sb0 :=
  claim_C7 sb0 tx1 spend3 (.MissingAmountForDbcId gId)
    (sb0.log_spent tx1 spend3).2 (by decide)

/-- The registration step never touches `dbc_ids` or `genesis`. -/
theorem registerTxFields (s : SpentbookNode) (tx : DbcTransaction) :
    (s.registerTx tx).dbc_ids = s.dbc_ids ∧ (s.registerTx tx).genesis = s.genesis
    ∧ (s.registerTx tx).transactions = orInsert s.transactions tx.hash tx
    ∧ (s.registerTx tx).outputs_by_input_id
        = ((lookupMap s.transactions tx.hash).getD tx).outputs.foldl
            (fun m o => orInsert m o.dbc_id o) s.outputs_by_input_id := by
  refine ⟨rfl, rfl, rfl, rfl⟩

/-- One `log_spent` call preserves any existing `dbc_ids` binding. -/
theorem stepPreservesDbcIds (s : SpentbookNode) (tx : DbcTransaction)
    (spend : SignedSpend) (k : DbcId) (v : Hash)
    (h : lookupMap s.dbc_ids k = some v) :
    lookupMap ((s.log_spent tx spend).2).dbc_ids k = some v := by
  rcases hr : s.log_spent tx spend with ⟨r, s₁⟩
  cases r with
  | error e =>
    rw [logSpentErrorPreserves s tx spend e s₁ hr]
    exact h
  | ok u =>
    cases u
    obtain ⟨-, -, hcase⟩ := logSpentOkState s tx spend s₁ hr
    rcases hcase with ⟨-, hs₁⟩ | ⟨-, hs₁⟩
    · rw [hs₁]
      exact h
    · rw [hs₁]
      show lookupMap (s.dbc_ids ++ [(spend.dbc_id, tx.hash)]) k = some v
      exact lookupAppendOfSome s.dbc_ids _ k v h

/-- One `log_spent` call preserves any existing `outputs_by_input_id`
binding. -/
theorem stepPreservesOutputs (s : SpentbookNode) (tx : DbcTransaction)
    (spend : SignedSpend) (k : DbcId) (v : BlindedOutput)
    (h : lookupMap s.outputs_by_input_id k = some v) :
    lookupMap ((s.log_spent tx spend).2).outputs_by_input_id k = some v := by
  rcases hr : s.log_spent tx spend with ⟨r, s₁⟩
  cases r with
  | error e =>
    rw [logSpentErrorPreserves s tx spend e s₁ hr]
    exact h
  | ok u =>
    cases u
    obtain ⟨-, -, hcase⟩ := logSpentOkState s tx spend s₁ hr
    rcases hcase with ⟨-, hs₁⟩ | ⟨-, hs₁⟩ <;>
    · rw [hs₁]
      exact foldlOrInsertPreserves _ _ k v h

/-- One `log_spent` call preserves any existing `transactions` binding. -/
theorem stepPreservesTxs (s : SpentbookNode) (tx : DbcTransaction)
    (spend : SignedSpend) (k : Hash) (v : DbcTransaction)
    (h : lookupMap s.transactions k = some v) :
    lookupMap ((s.log_spent tx spend).2).transactions k = some v := by
  rcases hr : s.log_spent tx spend with ⟨r, s₁⟩
  cases r with
  | error e =>
    rw [logSpentErrorPreserves s tx spend e s₁ hr]
    exact h
  | ok u =>
    cases u
    obtain ⟨-, -, hcase⟩ := logSpentOkState s tx spend s₁ hr
    rcases hcase with ⟨-, hs₁⟩ | ⟨-, hs₁⟩ <;>
    · rw [hs₁]
      exact orInsertPreserves _ _ _ k v h

/-- One `log_spent` call never changes the genesis entry. -/
theorem stepPreservesGenesis (s : SpentbookNode) (tx : DbcTransaction)
    (spend : SignedSpend) :
    ((s.log_spent tx spend).2).genesis = s.genesis := by
  rcases hr : s.log_spent tx spend with ⟨r, s₁⟩
  cases r with
  | error e => rw [logSpentErrorPreserves s tx spend e s₁ hr]
  | ok u =>
    cases u
    obtain ⟨-, -, hcase⟩ := logSpentOkState s tx spend s₁ hr
    rcases hcase with ⟨-, hs₁⟩ | ⟨-, hs₁⟩ <;> rw [hs₁] <;> rfl

/-- Bindings in `dbc_ids` persist along any chain of `log_spent` calls. -/
theorem reachPreservesDbcIds {s s' : SpentbookNode}
    (h : SpentbookNode.Reachable s s') (k : DbcId) (v : Hash)
    (hb : lookupMap s.dbc_ids k = some v) :
    lookupMap s'.dbc_ids k = some v := by
  induction h with
  | refl => exact hb
  | step tx spend _ ih => exact stepPreservesDbcIds _ tx spend k v ih

/-- Bindings in `outputs_by_input_id` persist along any chain of `log_spent`
calls. -/
theorem reachPreservesOutputs {s s' : SpentbookNode}
    (h : SpentbookNode.Reachable s s') (k : DbcId) (v : BlindedOutput)
    (hb : lookupMap s.outputs_by_input_id k = some v) :
    lookupMap s'.outputs_by_input_id k = some v := by
  induction h with
  | refl => exact hb
  | step tx spend _ ih => exact stepPreservesOutputs _ tx spend k v ih

/-- Bindings in `transactions` persist along any chain of `log_spent`
calls. -/
theorem reachPreservesTxs {s s' : SpentbookNode}
    (h : SpentbookNode.Reachable s s') (k : Hash) (v : DbcTransaction)
    (hb : lookupMap s.transactions k = some v) :
    lookupMap s'.transactions k = some v := by
  induction h with
  | refl => exact hb
  | step tx spend _ ih => exact stepPreservesTxs _ tx spend k v ih

/-- The genesis entry is constant along any chain of `log_spent` calls. -/
theorem reachPreservesGenesis {s s' : SpentbookNode}
    (h : SpentbookNode.Reachable s s') : s'.genesis = s.genesis := by
  induction h with
  | refl => rfl
  | step tx spend _ ih => rw [stepPreservesGenesis _ tx spend, ih]

/-- Splitting a lookup over a single appended binding. -/
theorem lookupAppendSingleton {α β : Type} [DecidableEq α]
    (m : List (α × β)) (k : α) (v : β) (k' : α) (v' : β)
    (h : lookupMap (m ++ [(k, v)]) k' = some v') :
    lookupMap m k' = some v' ∨ (lookupMap m k' = none ∧ k = k' ∧ v = v') := by
  cases hl : lookupMap m k' with
  | some w =>
    left
    rw [lookupAppendOfSome m [(k, v)] k' w hl] at h
    exact hl ▸ h.symm ▸ hl
  | none =>
    right
    refine ⟨rfl, ?_⟩
    induction m with
    | nil =>
      simp only [List.nil_append, lookupMap] at h
      by_cases hk : k = k'
      · rw [if_pos hk] at h
        exact ⟨hk, Option.some.inj h⟩
      · rw [if_neg hk] at h
        simp [lookupMap] at h
    | cons p t ih =>
      obtain ⟨k₀, v₀⟩ := p
      simp only [lookupMap, List.cons_append] at h hl
      by_cases hk : k₀ = k'
      · rw [if_pos hk] at hl
        simp at hl
      · rw [if_neg hk] at h hl
        exact ih h hl

/-- One `log_spent` call preserves the dbc_ids-to-transactions consistency
invariant. -/
theorem stepConsistentIdx (s : SpentbookNode) (tx : DbcTransaction)
    (spend : SignedSpend) (h : s.ConsistentIdx) :
    ((s.log_spent tx spend).2).ConsistentIdx := by
  rcases hr : s.log_spent tx spend with ⟨r, s₁⟩
  cases r with
  | error e =>
    rw [logSpentErrorPreserves s tx spend e s₁ hr]
    exact h
  | ok u =>
    cases u
    obtain ⟨-, -, hcase⟩ := logSpentOkState s tx spend s₁ hr
    have hmono : ∀ p : DbcId × Hash, p ∈ s.dbc_ids →
        (lookupMap (orInsert s.transactions tx.hash tx) p.2).isSome = true := by
      intro p hp
      have := h p hp
      cases hx : lookupMap s.transactions p.2 with
      | none => rw [hx] at this; simp at this
      | some w => simp [orInsertPreserves s.transactions tx.hash tx p.2 w hx]
    rcases hcase with ⟨-, hs₁⟩ | ⟨-, hs₁⟩
    · rw [hs₁]
      intro p hp
      exact hmono p hp
    · rw [hs₁]
      intro p hp
      rcases List.mem_append.mp hp with hmem | hnew
      · exact hmono p hmem
      · simp only [List.mem_singleton] at hnew
        rw [hnew]
        exact orInsertBinds s.transactions tx.hash tx

/-- One `log_spent` call preserves the output-registration invariant. -/
theorem stepRegisteredOutputs (s : SpentbookNode) (tx : DbcTransaction)
    (spend : SignedSpend) (h : s.RegisteredOutputs) :
    ((s.log_spent tx spend).2).RegisteredOutputs := by
  rcases hr : s.log_spent tx spend with ⟨r, s₁⟩
  cases r with
  | error e =>
    rw [logSpentErrorPreserves s tx spend e s₁ hr]
    exact h
  | ok u =>
    cases u
    obtain ⟨-, -, hcase⟩ := logSpentOkState s tx spend s₁ hr
    have hcore : ∀ h' tx', lookupMap (orInsert s.transactions tx.hash tx) h' = some tx' →
        ∀ o ∈ tx'.outputs,
          (lookupMap (((lookupMap s.transactions tx.hash).getD tx).outputs.foldl
            (fun m o => orInsert m o.dbc_id o) s.outputs_by_input_id) o.dbc_id).isSome = true := by
      intro h' tx' hl o ho
      rw [orInsert, orInsertGet] at hl
      cases hx : lookupMap s.transactions tx.hash with
      | some t₀ =>
        rw [hx] at hl
        have := h h' tx' hl o ho
        simp only [hx, Option.getD_some]
        exact foldlOrInsertMono t₀.outputs s.outputs_by_input_id o.dbc_id this
      | none =>
        rw [hx] at hl
        rcases lookupAppendSingleton s.transactions tx.hash tx h' tx' hl with hold | ⟨-, -, htx⟩
        · have := h h' tx' hold o ho
          simp only [hx, Option.getD_none]
          exact foldlOrInsertMono tx.outputs s.outputs_by_input_id o.dbc_id this
        · simp only [hx, Option.getD_none]
          rw [← htx] at ho
          exact foldlOrInsertBinds tx.outputs s.outputs_by_input_id o ho
    rcases hcase with ⟨-, hs₁⟩ | ⟨-, hs₁⟩
    · rw [hs₁]
      intro h' tx' hl o ho
      exact hcore h' tx' hl o ho
    · rw [hs₁]
      intro h' tx' hl o ho
      exact hcore h' tx' hl o ho

/-- The consistency invariant propagates along reachability. -/
theorem reachConsistentIdx {s s' : SpentbookNode}
    (h : SpentbookNode.Reachable s s') (hi : s.ConsistentIdx) : s'.ConsistentIdx := by
  induction h with
  | refl => exact hi
  | step tx spend _ ih => exact stepConsistentIdx _ tx spend ih

/-- The registration invariant propagates along reachability. -/
theorem reachRegisteredOutputs {s s' : SpentbookNode}
    (h : SpentbookNode.Reachable s s') (hi : s.RegisteredOutputs) :
    s'.RegisteredOutputs := by
  induction h with
  | refl => exact hi
  | step tx spend _ ih => exact stepRegisteredOutputs _ tx spend ih

/-- The default state satisfies both invariants. -/
theorem defaultInvariants (genesis : DbcId × BlindedAmount) (idKey : Nat) :
    (SpentbookNode.defaultState genesis idKey).ConsistentIdx
    ∧ (SpentbookNode.defaultState genesis idKey).RegisteredOutputs := by
  constructor
  · intro p hp
    simp [SpentbookNode.defaultState] at hp
  · intro h tx hl
    simp [SpentbookNode.defaultState, lookupMap] at hl

/-- A consistent index makes the iteration total. -/
theorem iterTotalOfConsistent (s : SpentbookNode) (h : s.ConsistentIdx) :
    s.iterTotal.isSome = true := by
  rw [SpentbookNode.iterTotal]
  have : ∀ l : List (DbcId × Hash),
      (∀ p ∈ l, (lookupMap s.transactions p.2).isSome = true) →
      (iterWorker s.transactions l).isSome = true := by
    intro l
    induction l with
    | nil => intro _; rfl
    | cons p t ih =>
      intro hall
      obtain ⟨k, hsh⟩ := p
      rw [iterWorker]
      have hp := hall (k, hsh) (List.mem_cons_self _ t)
      cases hx : lookupMap s.transactions hsh with
      | none => rw [hx] at hp; simp at hp
      | some tx =>
        have ht := ih (fun q hq => hall q (List.mem_cons_of_mem _ hq))
        cases hy : iterWorker s.transactions t with
        | none => rw [hy] at ht; simp at ht
        | some res => simp [hy]
  exact this s.dbc_ids h

/-- Claim C9: the invariant "every transaction hash stored in `dbc_ids` is a
key of `transactions`" holds in the default spentbook state, is preserved by
every `log_spent` call (successful or failing), and consequently `iter` never
reaches its inconsistent-state panic on any reachable state. -/
theorem claim_C9 (genesis : DbcId × BlindedAmount) (idKey : Nat) :
    (SpentbookNode.defaultState genesis idKey).ConsistentIdx
    ∧ (∀ (s : SpentbookNode) (tx : DbcTransaction) (spend : SignedSpend),
        s.ConsistentIdx → ((s.log_spent tx spend).2).ConsistentIdx)
    ∧ (∀ s : SpentbookNode,
        SpentbookNode.Reachable (SpentbookNode.defaultState genesis idKey) s →
        s.iterTotal.isSome = true) := by
  refine ⟨(defaultInvariants genesis idKey).1, ?_, ?_⟩
  · intro s tx spend h
    exact stepConsistentIdx s tx spend h
  · intro s hreach
    exact iterTotalOfConsistent s
      (reachConsistentIdx hreach (defaultInvariants genesis idKey).1)

/-- Claim C9 witness: the spentbook reached by logging the genesis spend
iterates without panicking. -/
theorem claim_C9_witness : sb1.iterTotal.isSome = true :=
  (claim_C9 (gId, gAmt) 0).2.2 sb1
    (SpentbookNode.Reachable.step tx1 spend1 (SpentbookNode.Reachable.refl sb0))

/-- A successful per-input amount resolution is stable under map growth that
keeps existing bindings. -/
theorem lookupAmountsStable (m m' : List (DbcId × BlindedOutput))
    (hm : ∀ k v, lookupMap m k = some v → lookupMap m' k = some v) :
    ∀ (inputs : List BlindedInput) (l : List (DbcId × BlindedAmount)),
      lookupAmounts m inputs = .ok l → lookupAmounts m' inputs = .ok l := by
  intro inputs
  induction inputs with
  | nil => intro l h; exact h
  | cons i t ih =>
    intro l h
    rw [lookupAmounts] at h ⊢
    cases hx : lookupMap m i.dbc_id with
    | none => rw [hx] at h; exact absurd h (by simp)
    | some p =>
      rw [hx] at h
      rw [hm i.dbc_id p hx]
      cases hrec : lookupAmounts m t with
      | error e => rw [hrec] at h; exact absurd h (by simp)
      | ok tail =>
        rw [hrec] at h
        rw [ih tail hrec]
        exact h

/-- A successful amended commitment resolution is stable under `log_spent`
reachability. -/
theorem amendedAmountsStable {s s' : SpentbookNode}
    (hreach : SpentbookNode.Reachable s s') (tx : DbcTransaction)
    (spend : SignedSpend) (as : List BlindedAmount)
    (h : amendedAmounts s tx spend = .ok as) :
    amendedAmounts s' tx spend = .ok as := by
  rw [amendedAmounts] at h ⊢
  rw [reachPreservesGenesis hreach]
  by_cases hg : spend.dbc_id = s.genesis.1
  · rw [if_pos hg] at h ⊢
    exact h
  · rw [if_neg hg] at h ⊢
    cases hla : lookupAmounts s.outputs_by_input_id tx.inputs with
    | error e => rw [hla] at h; exact absurd h (by simp [Except.map])
    | ok pairs =>
      rw [hla] at h
      rw [lookupAmountsStable s.outputs_by_input_id s'.outputs_by_input_id
        (fun k v hb => reachPreservesOutputs hreach k v hb) tx.inputs pairs hla]
      exact h

/-- A found binding is a member of the association list. -/
theorem lookupMemOfSome {α β : Type} [DecidableEq α] :
    ∀ (m : List (α × β)) (k : α) (v : β), lookupMap m k = some v → (k, v) ∈ m := by
  intro m k v
  induction m with
  | nil => intro h; exact absurd h (by simp [lookupMap])
  | cons p t ih =>
    obtain ⟨k₀, v₀⟩ := p
    intro h
    simp only [lookupMap] at h
    by_cases hk : k₀ = k
    · rw [if_pos hk] at h
      subst hk
      rw [← Option.some.inj h]
      exact List.mem_cons_self _ _
    · rw [if_neg hk] at h
      exact List.mem_cons_of_mem _ (ih h)

/-- Registering an already-stored transaction whose outputs are already
registered is a no-op. -/
theorem registerTxNoop (s : SpentbookNode) (tx : DbcTransaction)
    (hb : (lookupMap s.transactions tx.hash).isSome = true)
    (hreg : s.RegisteredOutputs) : s.registerTx tx = s := by
  cases hl : lookupMap s.transactions tx.hash with
  | none => rw [hl] at hb; simp at hb
  | some t₀ =>
    rw [SpentbookNode.registerTx]
    rw [orInsertNoop s.transactions tx.hash tx (by simp [hl])]
    rw [hl]
    simp only [Option.getD_some]
    rw [foldlOrInsertNoop t₀.outputs s.outputs_by_input_id
      (fun o ho => hreg tx.hash t₀ hl o ho)]

/-- Replaying a spend whose terminal binding, resolved commitments and
verification are all in place succeeds and leaves the state unchanged. -/
theorem logSpentReplayNoop (s₂ : SpentbookNode) (tx : DbcTransaction)
    (spend : SignedSpend)
    (hcons : s₂.ConsistentIdx) (hreg : s₂.RegisteredOutputs)
    (hid : lookupMap s₂.dbc_ids spend.dbc_id = some tx.hash)
    (hh : spend.spent_tx_hash = tx.hash)
    (has : ∃ as, amendedAmounts s₂ tx spend = .ok as ∧ tx.verify as = .ok ()) :
    s₂.log_spent tx spend = (.ok (), s₂) := by
  rw [logSpentEqAmended, SpentbookNode.logSpentAmended]
  rw [if_neg (by simp [hh])]
  obtain ⟨as, ha1, ha2⟩ := has
  rw [ha1]
  dsimp only
  rw [ha2]
  dsimp only
  rw [hid]
  dsimp only
  rw [if_pos rfl]
  have hmem : (spend.dbc_id, tx.hash) ∈ s₂.dbc_ids :=
    lookupMemOfSome s₂.dbc_ids spend.dbc_id tx.hash hid
  have hbind : (lookupMap s₂.transactions tx.hash).isSome = true :=
    hcons (spend.dbc_id, tx.hash) hmem
  rw [registerTxNoop s₂ tx hbind hreg]

/-- A spend naming an id already bound to a different transaction hash never
succeeds, and yields `DbcAlreadySpent` exactly when it survives the hash
check, the commitment resolution and the transaction verification. -/
theorem logSpentConflict (s₂ : SpentbookNode) (tx' : DbcTransaction)
    (spend' : SignedSpend) (h₀ : Hash)
    (hid : lookupMap s₂.dbc_ids spend'.dbc_id = some h₀)
    (hne : tx'.hash ≠ h₀) :
    (s₂.log_spent tx' spend').1 ≠ .ok ()
    ∧ (spend'.spent_tx_hash = tx'.hash →
       ∀ as, amendedAmounts s₂ tx' spend' = .ok as → tx'.verify as = .ok () →
       (s₂.log_spent tx' spend').1 = .error .DbcAlreadySpent) := by
  constructor
  · intro hok
    rcases hr : s₂.log_spent tx' spend' with ⟨r, s₃⟩
    rw [hr] at hok
    simp only at hok
    rw [hok] at hr
    obtain ⟨-, -, hcase⟩ := logSpentOkState s₂ tx' spend' s₃ hr
    rcases hcase with ⟨hl, -⟩ | ⟨hl, -⟩
    · rw [hid] at hl
      exact hne (Option.some.inj hl).symm
    · rw [hid] at hl
      exact absurd hl (by simp)
  · intro hh as ha1 ha2
    rw [logSpentEqAmended, SpentbookNode.logSpentAmended]
    rw [if_neg (by simp [hh])]
    rw [ha1]
    dsimp only
    rw [ha2]
    dsimp only
    rw [hid]
    dsimp only
    rw [if_neg (fun hc => hne hc.symm)]

/-- Reachability is transitive. -/
theorem reachTrans {a b c : SpentbookNode}
    (h₁ : SpentbookNode.Reachable a b) (h₂ : SpentbookNode.Reachable b c) :
    SpentbookNode.Reachable a c := by
  induction h₂ with
  | refl => exact h₁
  | step tx spend _ ih => exact SpentbookNode.Reachable.step tx spend ih

/-- Postconditions of a successful `log_spent`: the spend's hash matched, the
id is bound to the transaction's hash, the transaction is stored, and the
resolved commitments verified. -/
theorem logSpentOkPost (s : SpentbookNode) (tx : DbcTransaction)
    (spend : SignedSpend) (s₁ : SpentbookNode)
    (h : s.log_spent tx spend = (.ok (), s₁)) :
    spend.spent_tx_hash = tx.hash
    ∧ lookupMap s₁.dbc_ids spend.dbc_id = some tx.hash
    ∧ (lookupMap s₁.transactions tx.hash).isSome = true
    ∧ (∃ as, amendedAmounts s tx spend = .ok as ∧ tx.verify as = .ok ()) := by
  obtain ⟨hh, has, hcase⟩ := logSpentOkState s tx spend s₁ h
  refine ⟨hh, ?_, ?_, has⟩
  · rcases hcase with ⟨hl, hs₁⟩ | ⟨hl, hs₁⟩
    · rw [hs₁]
      exact hl
    · rw [hs₁]
      show lookupMap (s.dbc_ids ++ [(spend.dbc_id, tx.hash)]) spend.dbc_id = some tx.hash
      exact lookupAppendSelf s.dbc_ids spend.dbc_id tx.hash hl
  · rcases hcase with ⟨hl, hs₁⟩ | ⟨hl, hs₁⟩ <;>
    · rw [hs₁]
      exact orInsertBinds _ tx.hash tx

/-- Claim C4 (amended): once `log_spent(tx, signed_spend)` succeeds,
`is_spent` holds for the spend's id and the recorded hash never changes
through any later calls; any later `log_spent` naming the same dbc_id but a
different transaction hash never succeeds — with `DbcAlreadySpent` exactly
when it passes the hash check, the commitment resolution and transaction
verification, and with the corresponding earlier error otherwise — and
replaying the identical `(tx, signed_spend)` succeeds as a no-op; the
per-DbcId transition Unspent → Spent(tx_hash) is terminal. -/
theorem claim_C4 (genesis : DbcId × BlindedAmount) (idKey : Nat)
    (s₀ s₁ s₂ : SpentbookNode) (tx : DbcTransaction) (spend : SignedSpend)
    (hreach : SpentbookNode.Reachable (SpentbookNode.defaultState genesis idKey) s₀)
    (hsucc : s₀.log_spent tx spend = (.ok (), s₁))
    (hlater : SpentbookNode.Reachable s₁ s₂) :
    s₁.is_spent spend.dbc_id = true
    ∧ lookupMap s₂.dbc_ids spend.dbc_id = some tx.hash
    ∧ (∀ tx' spend', spend'.dbc_id = spend.dbc_id → tx'.hash ≠ tx.hash →
        (s₂.log_spent tx' spend').1 ≠ .ok ()
        ∧ (spend'.spent_tx_hash = tx'.hash →
           ∀ as, amendedAmounts s₂ tx' spend' = .ok as → tx'.verify as = .ok () →
           (s₂.log_spent tx' spend').1 = .error .DbcAlreadySpent))
    ∧ s₂.log_spent tx spend = (.ok (), s₂) := by
  obtain ⟨hh, hid1, hbind1, as, ha, hv⟩ := logSpentOkPost s₀ tx spend s₁ hsucc
  have hstep1 : SpentbookNode.Reachable s₀ s₁ := by
    have := SpentbookNode.Reachable.step tx spend (SpentbookNode.Reachable.refl s₀)
    rwa [show (s₀.log_spent tx spend).2 = s₁ from congrArg Prod.snd hsucc] at this
  have hid2 : lookupMap s₂.dbc_ids spend.dbc_id = some tx.hash :=
    reachPreservesDbcIds hlater spend.dbc_id tx.hash hid1
  have hreach2 : SpentbookNode.Reachable (SpentbookNode.defaultState genesis idKey) s₂ :=
    reachTrans (reachTrans hreach hstep1) hlater
  refine ⟨?_, hid2, ?_, ?_⟩
  · rw [SpentbookNode.is_spent, hid1]
    rfl
  · intro tx' spend' hsp hneq
    have hid2' : lookupMap s₂.dbc_ids spend'.dbc_id = some tx.hash := by
      rw [hsp]
      exact hid2
    exact logSpentConflict s₂ tx' spend' tx.hash hid2' hneq
  · have hcons : s₂.ConsistentIdx :=
      reachConsistentIdx hreach2 (defaultInvariants genesis idKey).1
    have hreg : s₂.RegisteredOutputs :=
      reachRegisteredOutputs hreach2 (defaultInvariants genesis idKey).2
    have hstable : amendedAmounts s₂ tx spend = .ok as :=
      amendedAmountsStable (reachTrans hstep1 hlater) tx spend as ha
    exact logSpentReplayNoop s₂ tx spend hcons hreg hid2 hh ⟨as, hstable, hv⟩

/-- Claim C4, counterexample: after the genesis spend is logged, a later
`log_spent` naming the same (spent) dbc_id with a different transaction hash
fails with `MissingTxInputs` — not with `DbcAlreadySpent` — because the
conflicting transaction is itself invalid and transaction verification runs
before the double-spend check. -/
theorem claim_C4_counterexample :
    sb1.is_spent gId = true
    ∧ lookupMap sb1.dbc_ids gId = some tx1.hash
    ∧ spend2.dbc_id = gId
    ∧ emptyTx.hash ≠ tx1.hash
    ∧ spend2.spent_tx_hash = emptyTx.hash
    ∧ (sb1.log_spent emptyTx spend2).1 = .error .MissingTxInputs
    ∧ (sb1.log_spent emptyTx spend2).1 ≠ .error .DbcAlreadySpent := by
  refine ⟨by decide, by decide, by decide, by decide, by decide, by decide, by decide⟩

/-- Claim C4 witness: replaying the logged genesis spend on the reached state
succeeds and leaves the spentbook unchanged. -/
theorem claim_C4_witness : sb1.log_spent tx1 spend1 = (.ok (), sb1) :=
  (claim_C4 (gId, gAmt) 0 sb0 sb1 sb1 tx1 spend1
    (SpentbookNode.Reachable.refl sb0) (by decide)
    (SpentbookNode.Reachable.refl sb1)).2.2.2

/-- Claim C10: whenever `DbcBuilder::build` succeeds,
`build_without_verifying` on the same builder state returns the identical
result — the two paths resolve the same spent proofs and build the same
output DBC tuples, differing only in the transaction+spent-proofs
verification and the spent-transaction containment check that `build`
additionally runs. -/
theorem claim_C10 (b : DbcBuilder) (verifier : SpentProofKeyVerifier)
    (h : (b.build verifier).isOk = true) :
    b.build_without_verifying = b.build verifier := by
  rw [DbcBuilder.build] at h
  rw [DbcBuilder.build_without_verifying, DbcBuilder.build]
  cases hr : b.resolved_spent_proofs with
  | error e => rfl
  | ok sp =>
    rw [hr] at h
    dsimp only at h ⊢
    cases htv : TransactionVerifier.verify verifier b.transaction sp with
    | error e =>
      rw [htv] at h
      dsimp only at h
      simp [Except.isOk, Except.toBool] at h
    | ok u =>
      cases u
      rw [htv] at h
      dsimp only at h ⊢
      by_cases hc : ¬ sp.all (fun p => (lookupMap b.spent_transactions p.transaction_hash).isSome)
      · rw [if_pos hc] at h
        simp [Except.isOk, Except.toBool] at h
      · rw [if_neg hc]

/-- Claim C10 witness: the concrete builder around `tx1` builds successfully
and both paths agree. -/
theorem claim_C10_witness :
    (builder1.build kv1).isOk = true
    ∧ builder1.build_without_verifying = builder1.build kv1 :=
  ⟨by decide, claim_C10 builder1 kv1 (by decide)⟩
